import Mathlib

/-!
# Verification of the llm-server KV-cache scheduler and streaming pipeline

This file gives a shallow embedding, in Lean 4, of the core data structures and
operations of the `llm-server` repository (Go), and proves or refutes the frozen
claims about it.

Embedding conventions:
* Go `int` values are modelled as `Int` where Go subtraction/division semantics
  matter (`ShiftDiscard`, `numPast`, `numKeep`), and as `Nat` for list lengths
  and indices once non-negativity is established by the surrounding code.
* Go byte strings are modelled as `List Nat` (each element a byte value).
* A Go function that can `panic` (nil-pointer dereference, slice out of bounds)
  is modelled with an `Option` wrapper whose `none` denotes the panic.
* Backend KV-cache mutations (`KvCacheSeqRm`, `KvCacheSeqAdd`) are recorded as an
  explicit event list; the success/failure of partial erasure is a `Bool`
  parameter (`rmOk`), since it depends on the opaque llama.cpp backend.
-/

namespace LlmServer

/-- Model of the Go `input` struct (`cache.go`): either a token or an image
embedding chunk.  The embedding payload (`[]float32` in Go) is modelled
opaquely as `List Int`; `reflect.DeepEqual` on these values is structural
equality, which matches `DecidableEq` here (the spec assumes NaN-free data). -/
structure GoInput where
  token : Int
  embed : Option (List Int)
deriving DecidableEq, Repr, Inhabited

/-- Shorthand for a token-only input, as built by the tokenizer loop. -/
def tok (t : Int) : GoInput := ⟨t, none⟩

deriving instance DecidableEq for Except

/-- Model of the Go `InputCacheSlot` struct (`cache.go`).  `lastUsed`
(a `time.Time` in Go) is modelled as a `Nat` timestamp. -/
structure InputCacheSlot where
  Id : Nat
  Inputs : List GoInput
  InUse : Bool
  lastUsed : Nat
deriving DecidableEq, Repr, Inhabited

/-- A backend KV-cache mutation, as issued by `ShiftCacheSlot`. -/
inductive KvOp where
  | seqRm (id : Nat) (p0 p1 : Int)
  | seqAdd (id : Nat) (p0 p1 delta : Int)
deriving DecidableEq, Repr

/-- `countCommonPrefix` from `cache.go`: the number of matching elements from
the start of two input slices (stops at the first mismatch or when either
slice is exhausted). -/
def countCommonPrefix : List GoInput → List GoInput → Nat
  | x :: a, y :: b => if x = y then countCommonPrefix a b + 1 else 0
  | _, _ => 0

/-- `ShiftDiscard` from `cache.go`:
`targetFree := max((numCtx - numKeep)/2, 1); currentFree := numCtx - inputLen;`
`discard := targetFree - currentFree`, clamped at 0.  Computed over `Int`
with Go's truncating division (`Int.tdiv`). -/
def ShiftDiscard (numCtx inputLen numKeep : Int) : Int :=
  let targetFree := Int.tdiv (numCtx - numKeep) 2
  let targetFree := max targetFree 1
  let currentFree := numCtx - inputLen
  let discard := targetFree - currentFree
  if discard < 0 then 0 else discard

/-- The in-place compaction loop of `ShiftCacheSlot`
(`for i := numKeep+discard; i < len; i++ { Inputs[i-discard] = Inputs[i] }`
followed by truncation to `len-discard`).  The loop writes position `i-discard`
reading position `i`, with the write cursor strictly behind the read cursor, so
each read sees the original value; after truncation, surviving position `p`
holds the original `xs[p]` when `p < numKeep` and `xs[p+discard]` otherwise. -/
def copyShift (xs : List GoInput) (numKeep discard : Nat) : List GoInput :=
  (List.range (xs.length - discard)).map fun p =>
    if p < numKeep then xs.getD p default else xs.getD (p + discard) default

/-- `ShiftCacheSlot` from `cache.go`.  Returns the updated slot together with
the list of KV operations issued on success; `rmOk` is the boolean result of
the backend's `KvCacheSeqRm`.  The slice operations are total here; the Go
slice bounds are proved in-range in the regime `0 ≤ numKeep < numCtx`
(see `shift_slice_in_bounds`). -/
def ShiftCacheSlot (numCtx : Int) (rmOk : Bool) (slot : InputCacheSlot)
    (numKeep : Int) : Except String (InputCacheSlot × List KvOp) :=
  if numKeep ≥ numCtx then
    .error "unable to shift context - keep exceeds context"
  else
    let discard := ShiftDiscard numCtx slot.Inputs.length numKeep
    if discard ≤ 0 then .ok (slot, [])
    else if !rmOk then
      .error "unable to remove old kv cache entries"
    else
      .ok ({ slot with
              Inputs := copyShift slot.Inputs numKeep.toNat discard.toNat },
           [KvOp.seqRm slot.Id numKeep (numKeep + discard),
            KvOp.seqAdd slot.Id (numKeep + discard) slot.Inputs.length (-discard)])

/-- The scan loop of `findLongestCacheSlot`: walk the slots with absolute index
`i`, skip in-use slots, track the best (strictly larger) common-prefix count
(`longest` starts at `-1`) and the index of the best slot. -/
def findLongestLoop (prompt : List GoInput) :
    List InputCacheSlot → Nat → Int → Option Nat → Int × Option Nat
  | [], _, longest, best => (longest, best)
  | s :: rest, i, longest, best =>
    if s.InUse then findLongestLoop prompt rest (i + 1) longest best
    else
      let count : Int := countCommonPrefix s.Inputs prompt
      if count > longest then findLongestLoop prompt rest (i + 1) count (some i)
      else findLongestLoop prompt rest (i + 1) longest best

/-- `findLongestCacheSlot` from `cache.go` (single-user mode): returns the index
of the chosen slot and `numPast` (the winning prefix length), or the
"no available cache slots" error when every slot is in use. -/
def findLongestCacheSlot (slots : List InputCacheSlot) (prompt : List GoInput) :
    Except String (Nat × Nat) :=
  match findLongestLoop prompt slots 0 (-1) none with
  | (_, none) => .error "no available cache slots"
  | (longest, some i) => .ok (i, longest.toNat)

/-- The scan loop of `findBestCacheSlot`: over ALL slots (in-use included) track
the best common-prefix count and index, and separately the least-recently-used
not-in-use slot (`oldest` starts at `now`; comparison is strict `<`,
matching `time.Before`). -/
def findBestLoop (prompt : List GoInput) :
    List InputCacheSlot → Nat → Int → Option Nat → Nat → Option Nat →
    Int × Option Nat × Nat × Option Nat
  | [], _, longest, bi, oldest, oi => (longest, bi, oldest, oi)
  | s :: rest, i, longest, bi, oldest, oi =>
    let count : Int := countCommonPrefix s.Inputs prompt
    let lb := if count > longest then (count, some i) else (longest, bi)
    let ob := if s.lastUsed < oldest && !s.InUse then (s.lastUsed, some i)
              else (oldest, oi)
    findBestLoop prompt rest (i + 1) lb.1 lb.2 ob.1 ob.2

/-- `findBestCacheSlot` from `cache.go` (multi-user mode).  The outer `Option`
models the Go runtime: `none` is a nil-pointer-dereference panic, which the
source performs when it reads `longestSlot.Inputs` or `oldestSlot.InUse` on a
nil pointer.  On success, returns the (possibly forked) slots array, the chosen
slot index, and `numPast`. -/
def findBestCacheSlot (now : Nat) (slots : List InputCacheSlot)
    (prompt : List GoInput) :
    Option (Except String (List InputCacheSlot × Nat × Nat)) :=
  match findBestLoop prompt slots 0 (-1) none now none with
  | (longest, bi, _, oi) =>
    match bi with
    | none => none   -- `longestSlot` is nil: the Go code panics here
    | some b =>
      let bSlot := slots.getD b default
      if longest = (bSlot.Inputs.length : Int) ∧ bSlot.InUse = false then
        some (.ok (slots, b, longest.toNat))
      else
        match oi with
        | none => none   -- `oldestSlot` is nil: the Go code panics here
        | some o =>
          let oSlot := slots.getD o default
          if oSlot.InUse then some (.error "no available cache slots")
          else if 0 < longest ∧ b ≠ o then
            let slots' := slots.set o
              { oSlot with Inputs := bSlot.Inputs.take longest.toNat }
            some (.ok (slots', o, longest.toNat))
          else
            some (.ok (slots, o, longest.toNat))

/-- The `numPast` adjustment pipeline of `LoadCacheSlot`: reset to 0 when the
prompt is not to be cached, decrement by 1 when equal to the prompt length,
reset to 0 when the backend refuses partial KV erasure. -/
def loadNumPast (cachePrompt rmOk : Bool) (numPast0 promptLen : Nat) : Int :=
  let numPast : Int := if cachePrompt = false then 0 else numPast0
  let numPast := if numPast = (promptLen : Int) then numPast - 1 else numPast
  if rmOk then numPast else 0

/-- The tail of `LoadCacheSlot` after slot selection: adjust `numPast`
(`loadNumPast`), mark the slot in use, then slice the prompt and the slot's
inputs.  `none` models the Go slice panics (`prompt[numPast:]` with `numPast`
negative or out of range, `slot.Inputs[:numPast]` out of range). -/
def loadFinish (now : Nat) (rmOk : Bool) (prompt : List GoInput)
    (cachePrompt : Bool) (slots1 : List InputCacheSlot) (idx numPast0 : Nat) :
    Option (Except String (List InputCacheSlot × InputCacheSlot × List GoInput)) :=
  let slot1 := { slots1.getD idx default with InUse := true, lastUsed := now }
  let numPast := loadNumPast cachePrompt rmOk numPast0 prompt.length
  if numPast < 0 then none
  else if slot1.Inputs.length < numPast.toNat then none
  else if prompt.length < numPast.toNat then none
  else
    let suffix := prompt.drop numPast.toNat
    let slot2 := { slot1 with Inputs := slot1.Inputs.take numPast.toNat }
    some (.ok (slots1.set idx slot2, slot2, suffix))

/-- `LoadCacheSlot` from `cache.go`.  Selects a slot (by mode), adjusts
`numPast`, marks the slot in use, truncates the slot's inputs to the reused
prefix and drops it from the prompt.  The outer `Option` models Go panics:
a nil dereference inside `findBestCacheSlot`, or a slice operation out of
range inside `loadFinish`. -/
def LoadCacheSlot (multiUser : Bool) (now : Nat) (rmOk : Bool)
    (slots : List InputCacheSlot) (prompt : List GoInput) (cachePrompt : Bool) :
    Option (Except String (List InputCacheSlot × InputCacheSlot × List GoInput)) :=
  let found : Option (Except String (List InputCacheSlot × Nat × Nat)) :=
    if multiUser = false then
      match findLongestCacheSlot slots prompt with
      | .error e => some (.error e)
      | .ok (i, np) => some (.ok (slots, i, np))
    else findBestCacheSlot now slots prompt
  match found with
  | none => none
  | some (.error e) => some (.error e)
  | some (.ok (slots1, idx, numPast0)) =>
    loadFinish now rmOk prompt cachePrompt slots1 idx numPast0

/-!
## Scheduler batch assembly (`processBatch`, `run.go` lines 139-180)

The inner loop of `processBatch` that moves a single sequence's `inputs` into
the current batch.  The batch-kind / cross-attention mismatch break and the
batch-full break (`run.go` lines 157-171) depend only on the batch object and
the input's tag, not on the cache; they are modelled by an arbitrary oracle
`brk : Nat → Bool` consulted at the same program point (after the context
budget check, before the add).  The claimed invariant holds for every oracle.
-/

/-- One sequence's share of batch assembly: iterate over the remaining
`seq.inputs` (with index `i`); before each input, if
`len(cache.Inputs) + len(pendingInputs) + 1 > numCtx` then either shift the
slot (when `pendingInputs` is empty) or stop; then (oracle) breaks for
batch-kind/size reasons; otherwise move the input to `pendingInputs`.
Returns the final `(cache.Inputs, pendingInputs)`. -/
def assembleLoop (numCtx : Nat) (numKeep : Int) (rmOk : Bool) (brk : Nat → Bool)
    (slotId : Nat) :
    List GoInput → Nat → List GoInput → List GoInput →
    Except String (List GoInput × List GoInput)
  | [], _, cache, pending => .ok (cache, pending)
  | inp :: rest, i, cache, pending =>
    if numCtx < cache.length + pending.length + 1 then
      if pending.length = 0 then
        match ShiftCacheSlot numCtx rmOk ⟨slotId, cache, true, 0⟩ numKeep with
        | .error e => .error e
        | .ok (slot', _) =>
          if brk i then .ok (slot'.Inputs, pending)
          else assembleLoop numCtx numKeep rmOk brk slotId rest (i + 1)
                 slot'.Inputs (pending ++ [inp])
      else .ok (cache, pending)
    else
      if brk i then .ok (cache, pending)
      else assembleLoop numCtx numKeep rmOk brk slotId rest (i + 1)
             cache (pending ++ [inp])

/-!
## Byte-string machinery (`run.go`)

Go strings are byte strings; they are modelled as `List Nat` (one entry per
byte).  Pieces (`TokenToPiece` outputs) are arbitrary byte strings.
-/

/-- Helper for `strings.Index`: scan suffixes of `s` left to right, returning
the first position where `sub` is a prefix. -/
def strIndexAux (sub : List Nat) : List Nat → Nat → Option Nat
  | [], i => if sub.isPrefixOf [] then some i else none
  | b :: t, i =>
    if sub.isPrefixOf (b :: t) then some i else strIndexAux sub t (i + 1)

/-- `strings.Index(s, sub)`: index of the first occurrence of `sub` in `s`,
or `none` (Go: `-1`) when absent.  The empty substring matches at 0. -/
def strIndex (s sub : List Nat) : Option Nat := strIndexAux sub s 0

/-- `strings.Contains(s, sub)`. -/
def strContains (s sub : List Nat) : Bool := (strIndex s sub).isSome

/-- `findStop` from `run.go`: the first stop string (in list order) that
occurs in `sequence`. -/
def findStop (sequence : List Nat) (stops : List (List Nat)) :
    Option (List Nat) :=
  stops.find? fun stop => strContains sequence stop

/-- `containsStopSuffix` from `run.go`: does `sequence` end with `stop[:i]`
for some configured stop and some `1 ≤ i ≤ len(stop)`? -/
def containsStopSuffix (sequence : List Nat) (stops : List (List Nat)) : Bool :=
  stops.any fun stop =>
    (List.range stop.length).any fun j => (stop.take (j + 1)).isSuffixOf sequence

/-- The reconstruction loop of `truncateStop` (`run.go`): split the truncated
`joined` string back into pieces of the original lengths; a piece that would
run past the end of `joined` is cut short and sets `tokenTruncated`. -/
def truncLoop (joined : List Nat) :
    List Nat → Nat → Bool → List (List Nat) × Bool
  | [], _, t => ([], t)
  | length :: rest, start, t =>
    if joined.length ≤ start then ([], t)
    else if joined.length < start + length then
      let piece := (joined.drop start).take (joined.length - start)
      let r := truncLoop joined rest joined.length true
      (piece :: r.1, r.2)
    else
      let piece := (joined.drop start).take length
      let r := truncLoop joined rest (start + length) t
      (piece :: r.1, r.2)

/-- `truncateStop` from `run.go`: cut the joined pieces just before the first
occurrence of `stop` and rebuild the piece list; the boolean reports whether a
piece was cut mid-way. -/
def truncateStop (pieces : List (List Nat)) (stop : List Nat) :
    List (List Nat) × Bool :=
  let joined := pieces.flatten
  match strIndex joined stop with
  | none => (pieces, false)
  | some index =>
    truncLoop (joined.take index) (pieces.map List.length) 0 false

/-- Continuation byte `10xxxxxx` (equivalently `0x80 ≤ b ≤ 0xBF`). -/
def isCont (b : Nat) : Bool := 0x80 ≤ b && b ≤ 0xBF

/-- Valid second bytes of a multi-byte UTF-8 sequence, per leading byte
(the accept ranges of Go's `unicode/utf8`). -/
def accept2 (b c : Nat) : Bool :=
  if b = 0xE0 then 0xA0 ≤ c && c ≤ 0xBF
  else if b = 0xED then 0x80 ≤ c && c ≤ 0x9F
  else if b = 0xF0 then 0x90 ≤ c && c ≤ 0xBF
  else if b = 0xF4 then 0x80 ≤ c && c ≤ 0x8F
  else isCont c

/-- The encoded length determined by a UTF-8 leading byte, per Go's
`unicode/utf8` first-byte table (0 marks an invalid leading byte). -/
def runeLen (b : Nat) : Nat :=
  if b ≤ 0x7F then 1
  else if 0xC2 ≤ b ∧ b ≤ 0xDF then 2
  else if 0xE0 ≤ b ∧ b ≤ 0xEF then 3
  else if 0xF0 ≤ b ∧ b ≤ 0xF4 then 4
  else 0

/-- Do the bytes begin with one complete well-formed rune (no overlong forms,
no surrogates, max U+10FFFF), per Go's `unicode/utf8` accept tables? -/
def validRuneAt : List Nat → Bool
  | [] => false
  | b :: rest =>
    if b ≤ 0x7F then true
    else if 0xC2 ≤ b ∧ b ≤ 0xDF then
      decide (1 ≤ rest.length) && isCont (rest.getD 0 0)
    else if 0xE0 ≤ b ∧ b ≤ 0xEF then
      decide (2 ≤ rest.length) && accept2 b (rest.getD 0 0)
        && isCont (rest.getD 1 0)
    else if 0xF0 ≤ b ∧ b ≤ 0xF4 then
      decide (3 ≤ rest.length) && accept2 b (rest.getD 0 0)
        && isCont (rest.getD 1 0) && isCont (rest.getD 2 0)
    else false

/-- The rune-at-a-time walk of `utf8.ValidString`: check a rune, skip its
bytes, continue.  `fuel ≥ length` makes the recursion total (an invalid
leading byte fails `validRuneAt`, so the unconsumed-byte case is moot). -/
def validUtf8Loop : Nat → List Nat → Bool
  | _, [] => true
  | 0, _ :: _ => false
  | fuel + 1, b :: rest =>
    validRuneAt (b :: rest)
      && validUtf8Loop fuel ((b :: rest).drop (runeLen b))

/-- `utf8.ValidString` over bytes. -/
def validUtf8 (s : List Nat) : Bool := validUtf8Loop s.length s

/-- The loop body of `incompleteUnicode` (`run.go`): walk backwards from the
end (distance `i`, at most 4), skipping continuation bytes; at the first
leading byte decide whether more continuation bytes are required than seen.
`fuel` bounds the iterations exactly as `i < 5` does in the source. -/
def incompleteLoop (token : List Nat) : Nat → Nat → Bool
  | 0, _ => false
  | fuel + 1, i =>
    if i < 5 ∧ i ≤ token.length then
      let c := token.getD (token.length - i) 0
      if c &&& 0xc0 = 0x80 then incompleteLoop token fuel (i + 1)
      else if c &&& 0xe0 = 0xc0 then decide (i < 2)
      else if c &&& 0xf0 = 0xe0 then decide (i < 3)
      else if c &&& 0xf8 = 0xf0 then decide (i < 4)
      else false
    else false

/-- `incompleteUnicode` from `run.go`. -/
def incompleteUnicode (token : List Nat) : Bool := incompleteLoop token 4 1

/-- The trailing-byte stripping loop of `flushPending`
(`for !utf8.ValidString(joined) { joined = joined[:len(joined)-1] }`), with
explicit fuel (the initial length suffices, since the empty string is valid). -/
def stripLoop : Nat → List Nat → List Nat
  | 0, s => s
  | fuel + 1, s =>
    if validUtf8 s then s else stripLoop fuel (s.take (s.length - 1))

/-- The string actually sent by `flushPending`: the joined pending pieces with
trailing bytes stripped until valid UTF-8. -/
def stripInvalid (s : List Nat) : List Nat := stripLoop s.length s

/-- `flushPending`'s effect on the `responses` channel: `some` message (the
stripped join) when non-empty, `none` when nothing is sent. -/
def flushMsg (pending : List (List Nat)) : Option (List Nat) :=
  let joined := stripInvalid pending.flatten
  if joined.isEmpty then none else some joined

/-- Observable trace of one sequence's generation-phase output handling. -/
structure GenTrace where
  /-- Messages flushed mid-stream (sequence still live afterwards). -/
  mid : List (List Nat)
  /-- The message flushed by `removeSequence` after stop-string truncation. -/
  stopMsg : Option (List Nat)
  /-- The stop string returned by `findStop` when the sequence stopped. -/
  stopStr : Option (List Nat)
  /-- Whether the run ended via the stop-substring branch. -/
  stopped : Bool
  /-- Pieces still pending when the piece list was exhausted without a stop. -/
  pending : List (List Nat)
deriving DecidableEq, Repr

/-- The per-tick response handling of `processBatch` (`run.go` lines 259-298),
iterated over a list of sampled pieces: append the piece, then in order
(1) stop-substring check: truncate, flush, finalize with `"stop"`;
(2) stop-suffix check: hold;
(3) incomplete-UTF-8 check: hold;
(4) flush via `flushPending`. -/
def genRun (stops : List (List Nat)) :
    List (List Nat) → List (List Nat) → GenTrace
  | [], pending => ⟨[], none, none, false, pending⟩
  | p :: rest, pending =>
    let pending1 := pending ++ [p]
    let seqStr := pending1.flatten
    match findStop seqStr stops with
    | some stop =>
      ⟨[], flushMsg (truncateStop pending1 stop).1, some stop, true, []⟩
    | none =>
      if containsStopSuffix seqStr stops then genRun stops rest pending1
      else if incompleteUnicode seqStr then genRun stops rest pending1
      else
        match flushMsg pending1 with
        | some m =>
          let t := genRun stops rest []
          ⟨m :: t.mid, t.stopMsg, t.stopStr, t.stopped, t.pending⟩
        | none => genRun stops rest []

/-!
## Sequence construction (`NewSequence`)

`numKeep` normalization and prompt truncation from `NewSequence`
(the `completion` handler file).
-/

/-- The `numKeep` normalization of `NewSequence`: if negative, set to the
input length; add 1 when the model auto-prepends BOS; clamp to `numCtx - 1`. -/
def normalizeNumKeep (numKeep : Int) (numInputs : Nat) (addBos : Bool)
    (numCtx : Nat) : Int :=
  let nk := if numKeep < 0 then (numInputs : Int) else numKeep
  let nk := if addBos then nk + 1 else nk
  min nk ((numCtx : Int) - 1)

/-- The prompt-truncation step of `NewSequence`: when the inputs exceed the
context window, keep the first `numKeep`, drop the next
`len(inputs) - numCtx`, and append the tail. -/
def truncatePromptInputs (inputs : List GoInput) (numKeep numCtx : Nat) :
    List GoInput :=
  if numCtx < inputs.length then
    let discard := inputs.length - numCtx
    inputs.take numKeep ++ inputs.drop (numKeep + discard)
  else inputs

/-!
## AES-CBC with PKCS#7 padding (`aes.go`)

The byte-level content of `AesEncrypt` / `AesDecrypt`, after base64 transport
(base64 encode/decode is a bijection on byte strings and is elided).  The AES
block cipher itself (`aes.NewCipher` keyed by a 16/24/32-byte key) is opaque;
it is modelled as a pair of functions `encB`/`decB` on 16-byte blocks, assumed
mutually inverse and length-preserving in the round-trip theorem, exactly as
the claim prescribes.
-/

/-- `pad` from `aes.go` (PKCS#7): append `blockSize - len % blockSize` bytes,
each holding the padding length. -/
def padBytes (data : List Nat) (blockSize : Nat) : List Nat :=
  let padding := blockSize - data.length % blockSize
  data ++ List.replicate padding padding

/-- `unpad` from `aes.go`: read the final byte as the padding length; if it
exceeds the block size leave the data alone, else drop that many bytes. -/
def unpadBytes (data : List Nat) (blockSize : Nat) : List Nat :=
  let padding := data.getD (data.length - 1) 0
  if blockSize < padding then data
  else data.take (data.length - padding)

/-- Byte-wise XOR of two equal-length blocks. -/
def xorBytes (a b : List Nat) : List Nat := List.zipWith (· ^^^ ·) a b

/-- CBC encryption over a list of blocks (`cipher.NewCBCEncrypter`):
each ciphertext block is `encB (plain XOR previousCipher)`, seeded by the IV. -/
def cbcEncrypt (encB : List Nat → List Nat) (iv : List Nat) :
    List (List Nat) → List (List Nat)
  | [] => []
  | p :: rest =>
    let c := encB (xorBytes p iv)
    c :: cbcEncrypt encB c rest

/-- CBC decryption over a list of blocks (`cipher.NewCBCDecrypter`). -/
def cbcDecrypt (decB : List Nat → List Nat) (iv : List Nat) :
    List (List Nat) → List (List Nat)
  | [] => []
  | c :: rest => xorBytes (decB c) iv :: cbcDecrypt decB c rest

/-- Split a byte string into 16-byte blocks (the block walk of
`CryptBlocks`); `fuel ≥ length` makes the recursion total. -/
def toBlocks : Nat → List Nat → List (List Nat)
  | _, [] => []
  | 0, xs => [xs]
  | fuel + 1, xs => xs.take 16 :: toBlocks fuel (xs.drop 16)

/-- Byte-level `AesEncrypt` from `aes.go`: PKCS#7-pad the text, CBC-encrypt
with the given IV, and prepend the IV. -/
def aesEncryptBytes (encB : List Nat → List Nat) (iv text : List Nat) :
    List Nat :=
  let padded := padBytes text 16
  iv ++ (cbcEncrypt encB iv (toBlocks padded.length padded)).flatten

/-- Byte-level `AesDecrypt` from `aes.go`: check the minimum length, split off
the IV, CBC-decrypt, and unpad. -/
def aesDecryptBytes (decB : List Nat → List Nat) (data : List Nat) :
    Except String (List Nat) :=
  if data.length < 16 then .error "ciphertext too short"
  else
    let iv := data.take 16
    let ct := data.drop 16
    .ok (unpadBytes (cbcDecrypt decB iv (toBlocks ct.length ct)).flatten 16)

/-!
## Lemmas: common prefixes
-/

theorem countCommonPrefix_le_left (a b : List GoInput) :
    countCommonPrefix a b ≤ a.length := by
  induction a generalizing b with
  | nil => simp [countCommonPrefix]
  | cons x a ih =>
    cases b with
    | nil => simp [countCommonPrefix]
    | cons y b =>
      simp only [countCommonPrefix]
      split
      · simpa using ih b
      · simp

theorem countCommonPrefix_le_right (a b : List GoInput) :
    countCommonPrefix a b ≤ b.length := by
  induction a generalizing b with
  | nil => simp [countCommonPrefix]
  | cons x a ih =>
    cases b with
    | nil => simp [countCommonPrefix]
    | cons y b =>
      simp only [countCommonPrefix]
      split
      · simpa using ih b
      · simp

theorem countCommonPrefix_take (a b : List GoInput) (n : Nat)
    (h : n ≤ countCommonPrefix a b) : a.take n = b.take n := by
  induction a generalizing b n with
  | nil =>
    simp only [countCommonPrefix, Nat.le_zero] at h
    subst h
    simp
  | cons x a ih =>
    cases b with
    | nil =>
      simp only [countCommonPrefix, Nat.le_zero] at h
      subst h
      simp
    | cons y b =>
      simp only [countCommonPrefix] at h
      split at h
      · cases n with
        | zero => simp
        | succ n =>
          subst_eqs
          simp only [List.take_succ_cons]
          rw [ih b n (by omega)]
      · have : n = 0 := by omega
        subst this
        simp

/-!
## Lemmas: the shift compaction
-/

theorem copyShift_length (xs : List GoInput) (k d : Nat) :
    (copyShift xs k d).length = xs.length - d := by
  simp [copyShift]

theorem copyShift_eq (xs : List GoInput) (k d : Nat)
    (h : k + d ≤ xs.length) :
    copyShift xs k d = xs.take k ++ xs.drop (k + d) := by
  have hk : k ≤ xs.length := by omega
  apply List.ext_getElem
  · simp [copyShift_length]
    omega
  · intro i h1 h2
    rw [copyShift_length] at h1
    simp only [copyShift, List.getElem_map, List.getElem_range]
    by_cases hik : i < k
    · rw [if_pos hik,
        List.getElem_append_left (by simpa [Nat.min_eq_left hk] using hik),
        List.getElem_take, List.getD_eq_getElem _ _ (by omega)]
    · rw [if_neg hik]
      have hlen : (xs.take k).length = k := by simp [Nat.min_eq_left hk]
      rw [List.getElem_append_right (by omega), List.getElem_drop,
        List.getD_eq_getElem _ _ (by omega)]
      congr 1
      simp [hlen]
      omega

/-!
## Lemmas: `ShiftDiscard` arithmetic
-/

theorem tdiv_two_ofNat (m : Nat) : Int.tdiv (m : Int) 2 = ((m / 2 : Nat) : Int) := rfl

/-- In the regime `numKeep < numCtx`, the kept prefix plus the target free
space never exceeds the context, hence the Go slice bounds inside
`ShiftCacheSlot` are in range. -/
theorem numKeep_add_targetFree_le (c k : Nat) (h : k < c) :
    k + max ((c - k) / 2) 1 ≤ c := by
  have h1 := Nat.div_add_mod (c - k) 2
  have h2 : (c - k) % 2 < 2 := Nat.mod_lt _ (by omega)
  omega

theorem shiftDiscard_eq (c l k : Nat) (h : k < c) :
    ShiftDiscard (c : Int) (l : Int) (k : Int)
      = ((max ((c - k) / 2) 1 : Nat) : Int) - ((c : Int) - (l : Int))
        ∨ (ShiftDiscard (c : Int) (l : Int) (k : Int) = 0
            ∧ ((max ((c - k) / 2) 1 : Nat) : Int) - ((c : Int) - (l : Int)) ≤ 0) := by
  unfold ShiftDiscard
  have hck : (c : Int) - (k : Int) = ((c - k : Nat) : Int) := by omega
  simp only [hck, tdiv_two_ofNat]
  split <;> omega

/-- `discard > 0` implies the compaction slice bounds are in range:
`numKeep + discard ≤ len(slot.Inputs)`. -/
theorem shift_slice_in_bounds (c l k : Nat) (h : k < c)
    (hd : 0 < ShiftDiscard (c : Int) (l : Int) (k : Int)) :
    k + (ShiftDiscard (c : Int) (l : Int) (k : Int)).toNat ≤ l := by
  have hb := numKeep_add_targetFree_le c k h
  rcases shiftDiscard_eq c l k h with he | ⟨he, _⟩
  · omega
  · omega

/-- `discard` is at least 1 whenever the slot is at or above the context
limit (and the keep count is legal). -/
theorem shiftDiscard_pos (c l k : Nat) (h : k < c) (hl : c ≤ l) :
    1 ≤ ShiftDiscard (c : Int) (l : Int) (k : Int) := by
  rcases shiftDiscard_eq c l k h with he | ⟨_, hle⟩
  · have : 1 ≤ max ((c - k) / 2) 1 := le_max_right _ _
    omega
  · have : 1 ≤ max ((c - k) / 2) 1 := le_max_right _ _
    omega

/-- Characterization of `ShiftCacheSlot` used by the claims: error cases,
the no-op case, and the success case in closed form. -/
theorem shiftCacheSlot_cases (c k : Nat) (slot : InputCacheSlot) (rmOk : Bool) :
    (c ≤ k → ShiftCacheSlot (c : Int) rmOk slot (k : Int)
        = .error "unable to shift context - keep exceeds context") ∧
    (k < c →
      (ShiftDiscard (c : Int) (slot.Inputs.length : Int) (k : Int) ≤ 0 →
        ShiftCacheSlot (c : Int) rmOk slot (k : Int) = .ok (slot, [])) ∧
      (0 < ShiftDiscard (c : Int) (slot.Inputs.length : Int) (k : Int) →
        (rmOk = false →
          ShiftCacheSlot (c : Int) rmOk slot (k : Int)
            = .error "unable to remove old kv cache entries") ∧
        (rmOk = true →
          ShiftCacheSlot (c : Int) rmOk slot (k : Int)
            = .ok (⟨slot.Id,
                slot.Inputs.take k ++ slot.Inputs.drop
                  (k + (ShiftDiscard (c : Int) (slot.Inputs.length : Int) (k : Int)).toNat),
                slot.InUse, slot.lastUsed⟩,
              [KvOp.seqRm slot.Id (k : Int)
                  ((k : Int) + ShiftDiscard (c : Int) (slot.Inputs.length : Int) (k : Int)),
               KvOp.seqAdd slot.Id
                  ((k : Int) + ShiftDiscard (c : Int) (slot.Inputs.length : Int) (k : Int))
                  (slot.Inputs.length : Int)
                  (-(ShiftDiscard (c : Int) (slot.Inputs.length : Int) (k : Int)))])))) := by
  constructor
  · intro hck
    unfold ShiftCacheSlot
    rw [if_pos (by omega)]
  · intro hck
    constructor
    · intro hd
      unfold ShiftCacheSlot
      rw [if_neg (by omega), if_pos hd]
    · intro hd
      constructor
      · intro hrm
        subst hrm
        unfold ShiftCacheSlot
        rw [if_neg (by omega), if_neg (by omega)]
        simp
      · intro hrm
        subst hrm
        unfold ShiftCacheSlot
        rw [if_neg (by omega), if_neg (by omega)]
        simp only [Bool.not_true, Bool.false_eq_true, if_false]
        rw [copyShift_eq _ _ _
          (by
            have := shift_slice_in_bounds c slot.Inputs.length k hck hd
            have : ((k : Int)).toNat = k := by omega
            omega)]
        congr 3

/-- `ShiftDiscard` written with `max` instead of the clamping `if`. -/
theorem shiftDiscard_as_max (c l k : Int) :
    ShiftDiscard c l k = max (max (Int.tdiv (c - k) 2) 1 - (c - l)) 0 := by
  simp only [ShiftDiscard]
  split <;> omega

/-- C2: `ShiftCacheSlot(slot, numKeep)` with `numKeep < numCtx` discards
exactly `discard = max(max((numCtx-numKeep)/2, 1) - (numCtx - len(slot.Inputs)), 0)`
entries: if `discard ≤ 0` it returns without changing anything (and issues no
KV operations); otherwise it issues `kvCacheSeqRm(id, numKeep, numKeep+discard)`
followed by `kvCacheSeqAdd(id, numKeep+discard, old length, -discard)` and
leaves `slot.Inputs` equal to its first `numKeep` entries followed by the
entries from position `numKeep + discard` onward (so its length drops by
`discard`); it fails without modifying `slot.Inputs` when `numKeep ≥ numCtx`
or when `kvCacheSeqRm` reports failure. -/
theorem claim_C2_shift_cache_slot (c k : Nat) (slot : InputCacheSlot) (rmOk : Bool) :
    (c ≤ k →
      ShiftCacheSlot (c : Int) rmOk slot (k : Int)
        = .error "unable to shift context - keep exceeds context") ∧
    (k < c →
      ShiftDiscard (c : Int) (slot.Inputs.length : Int) (k : Int)
        = max (max (Int.tdiv ((c : Int) - (k : Int)) 2) 1
            - ((c : Int) - (slot.Inputs.length : Int))) 0 ∧
      (ShiftDiscard (c : Int) (slot.Inputs.length : Int) (k : Int) ≤ 0 →
        ShiftCacheSlot (c : Int) rmOk slot (k : Int) = .ok (slot, [])) ∧
      (0 < ShiftDiscard (c : Int) (slot.Inputs.length : Int) (k : Int) →
        (rmOk = false →
          ShiftCacheSlot (c : Int) rmOk slot (k : Int)
            = .error "unable to remove old kv cache entries") ∧
        (rmOk = true →
          ShiftCacheSlot (c : Int) rmOk slot (k : Int)
            = .ok (⟨slot.Id,
                slot.Inputs.take k ++ slot.Inputs.drop
                  (k + (ShiftDiscard (c : Int) (slot.Inputs.length : Int) (k : Int)).toNat),
                slot.InUse, slot.lastUsed⟩,
              [KvOp.seqRm slot.Id (k : Int)
                  ((k : Int) + ShiftDiscard (c : Int) (slot.Inputs.length : Int) (k : Int)),
               KvOp.seqAdd slot.Id
                  ((k : Int) + ShiftDiscard (c : Int) (slot.Inputs.length : Int) (k : Int))
                  (slot.Inputs.length : Int)
                  (-(ShiftDiscard (c : Int) (slot.Inputs.length : Int) (k : Int)))]) ∧
          (slot.Inputs.take k ++ slot.Inputs.drop
              (k + (ShiftDiscard (c : Int) (slot.Inputs.length : Int) (k : Int)).toNat)).length
            = slot.Inputs.length
              - (ShiftDiscard (c : Int) (slot.Inputs.length : Int) (k : Int)).toNat))) := by
  obtain ⟨herr, hrest⟩ := shiftCacheSlot_cases c k slot rmOk
  refine ⟨herr, fun hck => ⟨shiftDiscard_as_max _ _ _, (hrest hck).1, fun hd => ?_⟩⟩
  refine ⟨fun hrm => ((hrest hck).2 hd).1 hrm, fun hrm => ⟨((hrest hck).2 hd).2 hrm, ?_⟩⟩
  have hb := shift_slice_in_bounds c slot.Inputs.length k hck hd
  simp only [List.length_append, List.length_take, List.length_drop]
  omega

/-- Witness for C2 at the spec's own concrete scenario S3:
`numCtx = 6`, `numKeep = 2`, inputs `[a,b,c,d,e,f]` gives `discard = 2`,
KV calls `seqRm(id,2,4)` and `seqAdd(id,4,6,-2)`, and inputs `[a,b,e,f]`. -/
theorem claim_C2_shift_cache_slot_witness :
    (2 : Nat) < 6 ∧
    ShiftCacheSlot ((6 : Nat) : Int) true
        ⟨0, [tok 1, tok 2, tok 3, tok 4, tok 5, tok 6], true, 0⟩ ((2 : Nat) : Int)
      = .ok (⟨0, [tok 1, tok 2, tok 5, tok 6], true, 0⟩,
          [KvOp.seqRm 0 2 4, KvOp.seqAdd 0 4 6 (-2)]) := by
  refine ⟨by decide, ?_⟩
  have h := (claim_C2_shift_cache_slot 6 2
    ⟨0, [tok 1, tok 2, tok 3, tok 4, tok 5, tok 6], true, 0⟩ true).2 (by decide)
  have h2 := (h.2.2 (by decide)).2 rfl
  exact h2.1.trans (by decide)

/-- C3 as stated is false: with `numCtx = 4`, `numKeep = 0` and a slot holding
3 inputs (so `len(slot.Inputs) = 3 ≤ numCtx - 1`), `ShiftCacheSlot` is *not* a
no-op: `targetFree = max(4/2,1) = 2 > currentFree = 1`, so it discards one
entry, mutates the backend KV state, and drops the first input. -/
theorem claim_C3_counterexample :
    ([tok 1, tok 2, tok 3] : List GoInput).length ≤ 4 - 1 ∧
    ShiftCacheSlot (4 : Int) true ⟨0, [tok 1, tok 2, tok 3], false, 0⟩ (0 : Int)
      = .ok (⟨0, [tok 2, tok 3], false, 0⟩,
          [KvOp.seqRm 0 0 1, KvOp.seqAdd 0 1 3 (-1)]) ∧
    ([tok 2, tok 3] : List GoInput) ≠ [tok 1, tok 2, tok 3] := by
  decide

/-- C3 (amended): `ShiftCacheSlot(slot, numKeep)` with `0 ≤ numKeep < numCtx`
is a no-op — it returns without error, leaves `slot.Inputs` unchanged and
issues no backend KV operations — exactly when
`len(slot.Inputs) ≤ numCtx - max((numCtx - numKeep)/2, 1)`
(equivalently, when the computed discard is ≤ 0), not whenever
`len(slot.Inputs) ≤ numCtx - 1`. -/
theorem claim_C3_shift_noop (c k : Nat) (slot : InputCacheSlot) (rmOk : Bool)
    (h : k < c)
    (hlen : slot.Inputs.length + max ((c - k) / 2) 1 ≤ c) :
    ShiftCacheSlot (c : Int) rmOk slot (k : Int) = .ok (slot, []) := by
  apply ((shiftCacheSlot_cases c k slot rmOk).2 h).1
  rcases shiftDiscard_eq c slot.Inputs.length k h with he | ⟨he, _⟩ <;> omega

/-- Witness for the amended C3: `numCtx = 6`, `numKeep = 2`, a slot with 4
inputs (`4 + max((6-2)/2,1) = 6 ≤ 6`): the call returns the slot unchanged. -/
theorem claim_C3_shift_noop_witness :
    ShiftCacheSlot (6 : Int) true ⟨0, [tok 1, tok 2, tok 3, tok 4], false, 0⟩ (2 : Int)
      = .ok (⟨0, [tok 1, tok 2, tok 3, tok 4], false, 0⟩, []) :=
  claim_C3_shift_noop 6 2 ⟨0, [tok 1, tok 2, tok 3, tok 4], false, 0⟩ true
    (by decide) (by decide)

/-- C4: in multi-user mode with every slot in use, `findBestCacheSlot` does
*not* return the "no available cache slots" error: the post-scan access
dereferences the nil `oldestSlot` pointer and the process panics (modelled by
`none`).  The single-user path (`findLongestCacheSlot`), by contrast, returns
the error for the same state.  The code contradicts the intended (and
spec-stated) behavior. -/
theorem claim_C4_all_slots_busy_panics :
    findBestCacheSlot 5 [⟨0, [], true, 0⟩, ⟨1, [], true, 0⟩] [tok 1] = none ∧
    LoadCacheSlot true 5 true [⟨0, [], true, 0⟩, ⟨1, [], true, 0⟩] [tok 1] true
      = none ∧
    findLongestCacheSlot [⟨0, [], true, 0⟩, ⟨1, [], true, 0⟩] [tok 1]
      = .error "no available cache slots" := by
  decide

/-!
## Lemmas: slot finders
-/

theorem findLongestLoop_spec (prompt : List GoInput) (slots : List InputCacheSlot) :
    ∀ (rest : List InputCacheSlot) (i : Nat) (longest : Int) (best : Option Nat),
      rest = slots.drop i →
      (∀ b, best = some b → b < slots.length ∧
          longest = (countCommonPrefix (slots.getD b default).Inputs prompt : Int)) →
      ∀ b', (findLongestLoop prompt rest i longest best).2 = some b' →
        b' < slots.length ∧
        (findLongestLoop prompt rest i longest best).1
          = (countCommonPrefix (slots.getD b' default).Inputs prompt : Int) := by
  intro rest
  induction rest with
  | nil =>
    intro i longest best _ hinv b' hb'
    simp only [findLongestLoop] at hb' ⊢
    exact hinv b' hb'
  | cons s rest' ih =>
    intro i longest best hdrop hinv b' hb'
    have hi : i < slots.length := by
      by_contra hcon
      rw [List.drop_eq_nil_of_le (by omega)] at hdrop
      exact List.cons_ne_nil _ _ hdrop
    rw [List.drop_eq_getElem_cons hi] at hdrop
    have hs : s = slots[i] := (List.cons.inj hdrop).1
    have hrest : rest' = slots.drop (i + 1) := (List.cons.inj hdrop).2
    simp only [findLongestLoop] at hb' ⊢
    by_cases hu : s.InUse
    · rw [if_pos hu] at hb' ⊢
      exact ih (i + 1) longest best hrest hinv b' hb'
    · rw [if_neg hu] at hb' ⊢
      by_cases hgt : (countCommonPrefix s.Inputs prompt : Int) > longest
      · rw [if_pos hgt] at hb' ⊢
        refine ih (i + 1) _ _ hrest ?_ b' hb'
        intro b hbeq
        cases Option.some.inj hbeq
        refine ⟨hi, ?_⟩
        rw [List.getD_eq_getElem _ _ hi, ← hs]
      · rw [if_neg hgt] at hb' ⊢
        exact ih (i + 1) longest best hrest hinv b' hb'

theorem findLongestCacheSlot_spec (slots : List InputCacheSlot)
    (prompt : List GoInput) (i np : Nat)
    (h : findLongestCacheSlot slots prompt = .ok (i, np)) :
    i < slots.length ∧
    np = countCommonPrefix (slots.getD i default).Inputs prompt := by
  unfold findLongestCacheSlot at h
  rcases hloop : findLongestLoop prompt slots 0 (-1) none with ⟨longest, best⟩
  rw [hloop] at h
  cases best with
  | none => exact absurd h (by simp)
  | some b =>
    simp only [Except.ok.injEq, Prod.mk.injEq] at h
    obtain ⟨hbi, hnp⟩ := h
    have hspec := findLongestLoop_spec prompt slots slots 0 (-1) none (by simp)
      (by intro x hx; cases hx) b (by rw [hloop])
    rw [hloop] at hspec
    have h1 : b < slots.length := hspec.1
    have h2 : longest = (countCommonPrefix (slots.getD b default).Inputs prompt : Int) :=
      hspec.2
    refine ⟨hbi ▸ h1, ?_⟩
    rw [← hbi, ← hnp, h2]
    simp

theorem findBestLoop_spec (prompt : List GoInput) (slots : List InputCacheSlot) :
    ∀ (rest : List InputCacheSlot) (i : Nat) (longest : Int) (bi : Option Nat)
      (oldest : Nat) (oi : Option Nat),
      rest = slots.drop i →
      (∀ b, bi = some b → b < slots.length ∧
          longest = (countCommonPrefix (slots.getD b default).Inputs prompt : Int)) →
      (∀ o, oi = some o → o < slots.length) →
      (∀ b', (findBestLoop prompt rest i longest bi oldest oi).2.1 = some b' →
        b' < slots.length ∧
        (findBestLoop prompt rest i longest bi oldest oi).1
          = (countCommonPrefix (slots.getD b' default).Inputs prompt : Int)) ∧
      (∀ o', (findBestLoop prompt rest i longest bi oldest oi).2.2.2 = some o' →
        o' < slots.length) := by
  intro rest
  induction rest with
  | nil =>
    intro i longest bi oldest oi _ hbinv hoinv
    simp only [findBestLoop]
    exact ⟨hbinv, hoinv⟩
  | cons s rest' ih =>
    intro i longest bi oldest oi hdrop hbinv hoinv
    have hi : i < slots.length := by
      by_contra hcon
      rw [List.drop_eq_nil_of_le (by omega)] at hdrop
      exact List.cons_ne_nil _ _ hdrop
    rw [List.drop_eq_getElem_cons hi] at hdrop
    have hs : s = slots[i] := (List.cons.inj hdrop).1
    have hrest : rest' = slots.drop (i + 1) := (List.cons.inj hdrop).2
    simp only [findBestLoop]
    refine ih (i + 1) _ _ _ _ hrest ?_ ?_
    · by_cases hgt : (countCommonPrefix s.Inputs prompt : Int) > longest
      · rw [if_pos hgt]
        intro b hbeq
        cases Option.some.inj hbeq
        refine ⟨hi, ?_⟩
        rw [List.getD_eq_getElem _ _ hi, ← hs]
      · rw [if_neg hgt]
        exact hbinv
    · by_cases hlt : (s.lastUsed < oldest && !s.InUse) = true
      · rw [if_pos hlt]
        intro o hoeq
        cases Option.some.inj hoeq
        exact hi
      · rw [if_neg hlt]
        exact hoinv

theorem findBestCacheSlot_spec (now : Nat) (slots : List InputCacheSlot)
    (prompt : List GoInput) (slots1 : List InputCacheSlot) (idx np : Nat)
    (h : findBestCacheSlot now slots prompt = some (.ok (slots1, idx, np))) :
    slots1.length = slots.length ∧
    idx < slots1.length ∧
    np ≤ (slots1.getD idx default).Inputs.length ∧
    np ≤ prompt.length ∧
    (slots1.getD idx default).Inputs.take np = prompt.take np := by
  unfold findBestCacheSlot at h
  rcases hloop : findBestLoop prompt slots 0 (-1) none now none with
    ⟨longest, bi, oldest, oi⟩
  rw [hloop] at h
  have hspec := findBestLoop_spec prompt slots slots 0 (-1) none now none
    (by simp) (by intro b hb; cases hb) (by intro o ho; cases ho)
  rw [hloop] at hspec
  cases bi with
  | none => exact absurd h (by simp)
  | some b =>
    dsimp only at h
    obtain ⟨hb_lt, hb_eq⟩ := hspec.1 b rfl
    have hnp_of : ∀ m : Nat, longest = (m : Int) → longest.toNat = m := by
      intro m hm
      rw [hm]
      simp
    by_cases hreuse :
        longest = ((slots.getD b default).Inputs.length : Int) ∧
          (slots.getD b default).InUse = false
    · rw [if_pos hreuse] at h
      simp only [Option.some.injEq, Except.ok.injEq, Prod.mk.injEq] at h
      obtain ⟨h1, h2, h3⟩ := h
      subst h1
      subst h2
      subst h3
      have hcnt := hnp_of _ hb_eq
      refine ⟨rfl, hb_lt, ?_, ?_, ?_⟩
      · rw [hcnt]
        exact countCommonPrefix_le_left _ _
      · rw [hcnt]
        exact countCommonPrefix_le_right _ _
      · rw [hcnt]
        exact countCommonPrefix_take _ _ _ le_rfl
    · rw [if_neg hreuse] at h
      cases oi with
      | none => exact absurd h (by simp)
      | some o =>
        dsimp only at h
        have ho_lt := hspec.2 o rfl
        by_cases huse : (slots.getD o default).InUse
        · rw [if_pos huse] at h
          exact absurd h (by simp)
        · rw [if_neg huse] at h
          have hcnt := hnp_of _ hb_eq
          by_cases hfork : 0 < longest ∧ b ≠ o
          · rw [if_pos hfork] at h
            simp only [Option.some.injEq, Except.ok.injEq, Prod.mk.injEq] at h
            obtain ⟨h1, h2, h3⟩ := h
            subst h2
            subst h3
            subst h1
            have hgd : (slots.set o
                  { slots.getD o default with
                    Inputs := (slots.getD b default).Inputs.take longest.toNat }).getD
                  o default
                = { slots.getD o default with
                    Inputs := (slots.getD b default).Inputs.take longest.toNat } := by
              rw [List.getD_eq_getElem _ _ (by simpa using ho_lt)]
              exact List.getElem_set_self _
            have hccp : longest.toNat
                = countCommonPrefix (slots.getD b default).Inputs prompt := hcnt
            refine ⟨by simp, by simpa using ho_lt, ?_, ?_, ?_⟩
            · rw [hgd]
              simp only [List.length_take]
              have hccl := countCommonPrefix_le_left
                (slots.getD b default).Inputs prompt
              omega
            · rw [hccp]
              exact countCommonPrefix_le_right _ _
            · rw [hgd]
              simp only
              rw [List.take_take, Nat.min_self, hccp]
              exact countCommonPrefix_take _ _ _ le_rfl
          · rw [if_neg hfork] at h
            simp only [Option.some.injEq, Except.ok.injEq, Prod.mk.injEq] at h
            obtain ⟨h1, h2, h3⟩ := h
            subst h1
            subst h2
            subst h3
            by_cases hbo : b = o
            · subst hbo
              have hcnt' := hnp_of _ hb_eq
              refine ⟨rfl, hb_lt, ?_, ?_, ?_⟩
              · rw [hcnt']
                exact countCommonPrefix_le_left _ _
              · rw [hcnt']
                exact countCommonPrefix_le_right _ _
              · rw [hcnt']
                exact countCommonPrefix_take _ _ _ le_rfl
            · have hzero : longest.toNat = 0 := by
                have : ¬ 0 < longest := by
                  intro hpos
                  exact hfork ⟨hpos, hbo⟩
                omega
              rw [hzero]
              exact ⟨rfl, ho_lt, by simp, by simp, by simp⟩

/-!
## Lemmas: `loadFinish`
-/

/-- Closed form of `loadNumPast` when the prompt is non-empty. -/
theorem loadNumPast_eq (cachePrompt rmOk : Bool) (np0 plen : Nat)
    (h1 : 1 ≤ plen) :
    loadNumPast cachePrompt rmOk np0 plen
      = if rmOk then
          (if cachePrompt then
            (if (np0 : Int) = (plen : Int) then (np0 : Int) - 1 else (np0 : Int))
          else 0)
        else 0 := by
  cases rmOk with
  | false => simp [loadNumPast]
  | true =>
    cases cachePrompt with
    | false =>
      simp only [loadNumPast]
      simp
      omega
    | true => simp [loadNumPast]

theorem loadNumPast_facts (cachePrompt rmOk : Bool) (np0 plen : Nat)
    (h1 : 1 ≤ plen) (h2 : np0 ≤ plen) :
    (loadNumPast cachePrompt rmOk np0 plen).toNat ≤ np0 ∧
    (loadNumPast cachePrompt rmOk np0 plen).toNat < plen ∧
    (cachePrompt = false → (loadNumPast cachePrompt rmOk np0 plen).toNat = 0) := by
  rw [loadNumPast_eq cachePrompt rmOk np0 plen h1]
  cases rmOk <;> cases cachePrompt <;> simp <;> (try split) <;> omega

theorem loadFinish_spec (now : Nat) (rmOk : Bool) (prompt : List GoInput)
    (cachePrompt : Bool) (slots1 : List InputCacheSlot) (idx np0 : Nat)
    (hne : prompt ≠ [])
    (hle1 : np0 ≤ (slots1.getD idx default).Inputs.length)
    (hpref : (slots1.getD idx default).Inputs.take np0 = prompt.take np0)
    (hle2 : np0 ≤ prompt.length)
    (slots' : List InputCacheSlot) (slot : InputCacheSlot) (suffix : List GoInput)
    (hok : loadFinish now rmOk prompt cachePrompt slots1 idx np0
        = some (.ok (slots', slot, suffix))) :
    slot.Inputs ++ suffix = prompt ∧
    slot.Inputs.length < prompt.length ∧
    suffix ≠ [] ∧
    slot.InUse = true ∧
    (cachePrompt = false → slot.Inputs = [] ∧ suffix = prompt) := by
  have hplen : 1 ≤ prompt.length := List.length_pos.mpr hne
  obtain ⟨hnp_le, hnp_lt, hnp_cp⟩ :=
    loadNumPast_facts cachePrompt rmOk np0 prompt.length hplen hle2
  simp only [loadFinish] at hok
  set n := (loadNumPast cachePrompt rmOk np0 prompt.length).toNat with hn
  split at hok
  · exact absurd hok (by simp)
  · split at hok
    · exact absurd hok (by simp)
    · split at hok
      · exact absurd hok (by simp)
      · simp only [Option.some.injEq, Except.ok.injEq, Prod.mk.injEq] at hok
        obtain ⟨_, hslot, hsuffix⟩ := hok
        have hInputs : slot.Inputs = (slots1.getD idx default).Inputs.take n := by
          rw [← hslot]
        have hInUse : slot.InUse = true := by rw [← hslot]
        have hpref_n : (slots1.getD idx default).Inputs.take n = prompt.take n := by
          have := congrArg (List.take n) hpref
          rwa [List.take_take, List.take_take, Nat.min_eq_left hnp_le] at this
        refine ⟨?_, ?_, ?_, hInUse, ?_⟩
        · rw [hInputs, hpref_n, ← hsuffix, List.take_append_drop]
        · rw [hInputs]
          simp only [List.length_take]
          omega
        · rw [← hsuffix]
          intro hcon
          have := congrArg List.length hcon
          simp only [List.length_drop, List.length_nil] at this
          omega
        · intro hcp
          have hn0 := hnp_cp hcp
          constructor
          · rw [hInputs, hn0]
            simp
          · rw [← hsuffix, hn0]
            simp

/-- C1: for every non-empty prompt and either value of `cachePrompt`, if
`LoadCacheSlot(prompt, cachePrompt)` returns successfully with a slot and a
suffix then: the slot's `Inputs` are element-wise a proper prefix of the
prompt; `Inputs ++ suffix = prompt`; the suffix is non-empty (at least one
input remains to be decoded, because `numPast` is decremented when it equals
the prompt length); and the slot is marked in use.  When `cachePrompt` is
false the slot's `Inputs` are empty and the suffix is the whole prompt. -/
theorem claim_C1_load_cache_slot (multiUser : Bool) (now : Nat) (rmOk : Bool)
    (slots : List InputCacheSlot) (prompt : List GoInput) (cachePrompt : Bool)
    (slots' : List InputCacheSlot) (slot : InputCacheSlot) (suffix : List GoInput)
    (hne : prompt ≠ [])
    (hok : LoadCacheSlot multiUser now rmOk slots prompt cachePrompt
        = some (.ok (slots', slot, suffix))) :
    slot.Inputs ++ suffix = prompt ∧
    slot.Inputs.length < prompt.length ∧
    suffix ≠ [] ∧
    slot.InUse = true ∧
    (cachePrompt = false → slot.Inputs = [] ∧ suffix = prompt) := by
  unfold LoadCacheSlot at hok
  by_cases hm : multiUser = false
  · rw [if_pos hm] at hok
    cases hfind : findLongestCacheSlot slots prompt with
    | error e =>
      rw [hfind] at hok
      exact absurd hok (by simp)
    | ok p =>
      rcases p with ⟨i, np⟩
      rw [hfind] at hok
      obtain ⟨hi_lt, hnp_eq⟩ := findLongestCacheSlot_spec slots prompt i np hfind
      exact loadFinish_spec now rmOk prompt cachePrompt slots i np hne
        (hnp_eq ▸ countCommonPrefix_le_left _ _)
        (hnp_eq ▸ countCommonPrefix_take _ _ _ le_rfl)
        (hnp_eq ▸ countCommonPrefix_le_right _ _)
        slots' slot suffix hok
  · rw [if_neg hm] at hok
    cases hfind : findBestCacheSlot now slots prompt with
    | none =>
      rw [hfind] at hok
      exact absurd hok (by simp)
    | some r =>
      cases r with
      | error e =>
        rw [hfind] at hok
        exact absurd hok (by simp)
      | ok p =>
        rcases p with ⟨slots1, idx, np⟩
        rw [hfind] at hok
        obtain ⟨_, _, hle1, hle2, hpref⟩ :=
          findBestCacheSlot_spec now slots prompt slots1 idx np hfind
        exact loadFinish_spec now rmOk prompt cachePrompt slots1 idx np hne
          hle1 hpref hle2 slots' slot suffix hok

/-- Witness for C1: single-user mode, one slot caching `[t1,t2,t3,t4]`, prompt
`[t1,t2,t3,t5]` with `cachePrompt = true` reuses the 3-token prefix. -/
theorem claim_C1_load_cache_slot_witness :
    ([tok 1, tok 2, tok 3, tok 5] : List GoInput) ≠ [] ∧
    LoadCacheSlot false 9 true [⟨0, [tok 1, tok 2, tok 3, tok 4], false, 0⟩]
        [tok 1, tok 2, tok 3, tok 5] true
      = some (.ok ([⟨0, [tok 1, tok 2, tok 3], true, 9⟩],
          ⟨0, [tok 1, tok 2, tok 3], true, 9⟩, [tok 5])) ∧
    ([tok 1, tok 2, tok 3] : List GoInput) ++ [tok 5]
        = [tok 1, tok 2, tok 3, tok 5] ∧
    ([tok 1, tok 2, tok 3] : List GoInput).length
        < ([tok 1, tok 2, tok 3, tok 5] : List GoInput).length ∧
    ([tok 5] : List GoInput) ≠ [] := by
  refine ⟨by decide, by decide, ?_⟩
  have h := claim_C1_load_cache_slot false 9 true
    [⟨0, [tok 1, tok 2, tok 3, tok 4], false, 0⟩] [tok 1, tok 2, tok 3, tok 5]
    true [⟨0, [tok 1, tok 2, tok 3], true, 9⟩] ⟨0, [tok 1, tok 2, tok 3], true, 9⟩
    [tok 5] (by decide) (by decide)
  exact ⟨h.1, h.2.1, h.2.2.1⟩

/-!
## Lemmas: batch assembly and the context budget (C5)
-/

/-- When the slot is at or above the context limit, the computed discard is at
least the overflow plus one, for any `numKeep`. -/
theorem shiftDiscard_lower (c l k : Int) (h : c ≤ l) :
    l - c + 1 ≤ ShiftDiscard c l k := by
  simp only [ShiftDiscard]
  split <;> omega

/-- A successful `ShiftCacheSlot` on a slot at or above the context limit
leaves strictly fewer than `numCtx` inputs. -/
theorem shift_ok_shrinks (c : Nat) (hc : 1 ≤ c) (rmOk : Bool)
    (slot : InputCacheSlot) (k : Int) (slot' : InputCacheSlot) (ops : List KvOp)
    (hok : ShiftCacheSlot (c : Int) rmOk slot k = .ok (slot', ops))
    (hfull : c ≤ slot.Inputs.length) :
    slot'.Inputs.length < c := by
  have hlow := shiftDiscard_lower (c : Int) (slot.Inputs.length : Int) k (by omega)
  simp only [ShiftCacheSlot] at hok
  split at hok
  · exact absurd hok (by simp)
  · split at hok
    · omega
    · split at hok
      · exact absurd hok (by simp)
      · simp only [Except.ok.injEq, Prod.mk.injEq] at hok
        obtain ⟨h1, _⟩ := hok
        rw [← h1]
        simp only [copyShift_length]
        omega

theorem assembleLoop_budget (numCtx : Nat) (hc : 1 ≤ numCtx) (numKeep : Int)
    (rmOk : Bool) (brk : Nat → Bool) (slotId : Nat) :
    ∀ (inputs : List GoInput) (i : Nat) (cache pending : List GoInput)
      (cache' pending' : List GoInput),
      cache.length + pending.length ≤ numCtx →
      assembleLoop numCtx numKeep rmOk brk slotId inputs i cache pending
        = .ok (cache', pending') →
      cache'.length + pending'.length ≤ numCtx := by
  intro inputs
  induction inputs with
  | nil =>
    intro i cache pending cache' pending' hinv hok
    simp only [assembleLoop, Except.ok.injEq, Prod.mk.injEq] at hok
    obtain ⟨h1, h2⟩ := hok
    subst h1
    subst h2
    exact hinv
  | cons inp rest ih =>
    intro i cache pending cache' pending' hinv hok
    simp only [assembleLoop] at hok
    by_cases hbudget : numCtx < cache.length + pending.length + 1
    · rw [if_pos hbudget] at hok
      by_cases hpend : pending.length = 0
      · rw [if_pos hpend] at hok
        cases hshift : ShiftCacheSlot (numCtx : Int) rmOk
            ⟨slotId, cache, true, 0⟩ numKeep with
        | error e =>
          rw [hshift] at hok
          exact absurd hok (by simp)
        | ok pr =>
          rcases pr with ⟨slot', ops⟩
          rw [hshift] at hok
          dsimp only at hok
          have hfull : numCtx ≤ cache.length := by omega
          have hlt : slot'.Inputs.length < numCtx :=
            shift_ok_shrinks numCtx hc rmOk ⟨slotId, cache, true, 0⟩ numKeep
              slot' ops hshift hfull
          by_cases hbrk : brk i = true
          · rw [if_pos hbrk] at hok
            simp only [Except.ok.injEq, Prod.mk.injEq] at hok
            obtain ⟨h1, h2⟩ := hok
            subst h1
            subst h2
            omega
          · rw [if_neg hbrk] at hok
            refine ih (i + 1) slot'.Inputs (pending ++ [inp]) cache' pending'
              ?_ hok
            simp only [List.length_append, List.length_singleton]
            omega
      · rw [if_neg hpend] at hok
        simp only [Except.ok.injEq, Prod.mk.injEq] at hok
        obtain ⟨h1, h2⟩ := hok
        subst h1
        subst h2
        exact hinv
    · rw [if_neg hbudget] at hok
      by_cases hbrk : brk i = true
      · rw [if_pos hbrk] at hok
        simp only [Except.ok.injEq, Prod.mk.injEq] at hok
        obtain ⟨h1, h2⟩ := hok
        subst h1
        subst h2
        exact hinv
      · rw [if_neg hbrk] at hok
        refine ih (i + 1) cache (pending ++ [inp]) cache' pending' ?_ hok
        simp only [List.length_append, List.length_singleton]
        omega

/-- C5: throughout batch assembly (for any break oracle modelling the
batch-kind and batch-size breaks) the context budget
`len(cache.Inputs) + len(pendingInputs) ≤ numCtx` is preserved, so it also
holds after the tick commits `pendingInputs` into `cache.Inputs`; and the
shift performed when the budget would be exceeded with empty `pendingInputs`
always discards at least one entry. -/
theorem claim_C5_context_budget (numCtx : Nat) (hc : 1 ≤ numCtx)
    (numKeep : Int) (rmOk : Bool) (brk : Nat → Bool) (slotId : Nat) :
    (∀ (inputs : List GoInput) (i : Nat) (cache pending cache' pending' :
        List GoInput),
      cache.length + pending.length ≤ numCtx →
      assembleLoop numCtx numKeep rmOk brk slotId inputs i cache pending
        = .ok (cache', pending') →
      cache'.length + pending'.length ≤ numCtx ∧
      (cache' ++ pending').length ≤ numCtx) ∧
    (∀ inputLen : Nat, numCtx ≤ inputLen →
      1 ≤ ShiftDiscard (numCtx : Int) (inputLen : Int) numKeep) := by
  constructor
  · intro inputs i cache pending cache' pending' hinv hok
    have h := assembleLoop_budget numCtx hc numKeep rmOk brk slotId
      inputs i cache pending cache' pending' hinv hok
    exact ⟨h, by simpa using h⟩
  · intro inputLen hfull
    have := shiftDiscard_lower (numCtx : Int) (inputLen : Int) numKeep (by omega)
    omega

/-- Witness for C5: `numCtx = 4`, slot full with 4 cached inputs; assembling
one more token first shifts the slot (discarding 2) and then stages the
token, ending with `2 + 1 ≤ 4`. -/
theorem claim_C5_context_budget_witness :
    (([tok 3, tok 4] : List GoInput).length
        + ([tok 5] : List GoInput).length ≤ 4) ∧
    1 ≤ ShiftDiscard ((4 : Nat) : Int) ((4 : Nat) : Int) 0 := by
  constructor
  · exact ((claim_C5_context_budget 4 (by decide) 0 true (fun _ => false) 0).1
      [tok 5] 0 [tok 1, tok 2, tok 3, tok 4] [] [tok 3, tok 4] [tok 5]
      (by decide) (by decide)).1
  · exact (claim_C5_context_budget 4 (by decide) 0 true (fun _ => false) 0).2
      4 (by decide)

/-!
## Lemmas: `strings.Index` / `strings.Contains`
-/

theorem strIndexAux_spec (sub : List Nat) :
    ∀ (s : List Nat) (i idx : Nat), strIndexAux sub s i = some idx →
      i ≤ idx ∧ idx - i ≤ s.length ∧
      sub.isPrefixOf (s.drop (idx - i)) = true ∧
      (∀ j, i ≤ j → j < idx → sub.isPrefixOf (s.drop (j - i)) = false) := by
  intro s
  induction s with
  | nil =>
    intro i idx h
    simp only [strIndexAux] at h
    split at h
    next hcond =>
      cases Option.some.inj h
      exact ⟨le_rfl, by simp, by simpa using hcond, by intro j hj1 hj2; omega⟩
    next => cases h
  | cons b t ih =>
    intro i idx h
    simp only [strIndexAux] at h
    split at h
    next hcond =>
      cases Option.some.inj h
      exact ⟨le_rfl, by simp, by simpa using hcond, by intro j hj1 hj2; omega⟩
    next hcond =>
      rw [Bool.not_eq_true] at hcond
      obtain ⟨h1, h2, h3, h4⟩ := ih (i + 1) idx h
      refine ⟨by omega, by simp; omega, ?_, ?_⟩
      · have heq : (b :: t).drop (idx - i) = t.drop (idx - (i + 1)) := by
          have : idx - i = (idx - (i + 1)) + 1 := by omega
          rw [this]
          simp
        rw [heq]
        exact h3
      · intro j hj1 hj2
        rcases Nat.eq_or_lt_of_le hj1 with heq | hlt
        · subst heq
          simpa using hcond
        · have heq : (b :: t).drop (j - i) = t.drop (j - (i + 1)) := by
            have : j - i = (j - (i + 1)) + 1 := by omega
            rw [this]
            simp
          rw [heq]
          exact h4 j (by omega) hj2

theorem strIndex_spec (s sub : List Nat) (idx : Nat)
    (h : strIndex s sub = some idx) :
    idx ≤ s.length ∧ sub.isPrefixOf (s.drop idx) = true ∧
    (∀ j, j < idx → sub.isPrefixOf (s.drop j) = false) := by
  obtain ⟨_, h2, h3, h4⟩ := strIndexAux_spec sub s 0 idx h
  refine ⟨by omega, by simpa using h3, ?_⟩
  intro j hj
  simpa using h4 j (by omega) hj

theorem strIndexAux_isSome (sub : List Nat) :
    ∀ (s : List Nat) (i j : Nat), j ≤ s.length →
      sub.isPrefixOf (s.drop j) = true → (strIndexAux sub s i).isSome := by
  intro s
  induction s with
  | nil =>
    intro i j hj hpre
    have hj0 : j = 0 := by simpa using hj
    subst hj0
    have hpre' : sub.isPrefixOf ([] : List Nat) = true := by simpa using hpre
    simp [strIndexAux, hpre']
  | cons b t ih =>
    intro i j hj hpre
    simp only [strIndexAux]
    split
    · simp
    · cases j with
      | zero =>
        simp only [List.drop_zero] at hpre
        simp_all
      | succ j' =>
        exact ih (i + 1) j' (by simpa using hj) (by simpa using hpre)

theorem strContains_iff (s sub : List Nat) :
    strContains s sub = true ↔
      ∃ j, j ≤ s.length ∧ sub.isPrefixOf (s.drop j) = true := by
  constructor
  · intro h
    simp only [strContains, Option.isSome_iff_exists] at h
    obtain ⟨idx, hidx⟩ := h
    obtain ⟨h1, h2, _⟩ := strIndex_spec s sub idx hidx
    exact ⟨idx, h1, h2⟩
  · rintro ⟨j, hj, hpre⟩
    exact strIndexAux_isSome sub s 0 j hj hpre

/-- Containment is monotone along list prefixes (a substring of a prefix is a
substring of the whole). -/
theorem strContains_mono (m s sub : List Nat) (hpre : m <+: s)
    (h : strContains m sub = true) : strContains s sub = true := by
  rw [strContains_iff] at h ⊢
  obtain ⟨j, hj, hp⟩ := h
  obtain ⟨r, hr⟩ := hpre
  refine ⟨j, ?_, ?_⟩
  · rw [← hr]
    simp only [List.length_append]
    omega
  · rw [← hr, List.drop_append_of_le_length hj]
    rw [List.isPrefixOf_iff_prefix] at hp ⊢
    exact hp.trans (List.prefix_append _ _)

/-- The empty substring is found at index 0. -/
theorem strIndex_nil (s : List Nat) : strIndex s [] = some 0 := by
  cases s <;> rfl

/-- The truncation point returned by `strings.Index` really cuts before the
first occurrence: the prefix of `s` of length `idx` does not contain `sub`
(for non-empty `sub`). -/
theorem strContains_take_index (s sub : List Nat) (idx : Nat)
    (hsub : sub ≠ []) (h : strIndex s sub = some idx) :
    strContains (s.take idx) sub = false := by
  obtain ⟨hidx_le, _, hmin⟩ := strIndex_spec s sub idx h
  by_contra hcon
  rw [Bool.not_eq_false, strContains_iff] at hcon
  obtain ⟨j, hj, hp⟩ := hcon
  simp only [List.length_take] at hj
  have hj' : j ≤ idx := by omega
  rw [List.drop_take, List.isPrefixOf_iff_prefix] at hp
  have hlen : sub.length ≤ idx - j := by
    have := hp.length_le
    simp only [List.length_take, List.length_drop] at this
    omega
  have hj_lt : j < idx := by
    have : sub.length ≠ 0 := by
      intro hc
      exact hsub (List.length_eq_zero.mp hc)
    omega
  have : sub.isPrefixOf (s.drop j) = true := by
    rw [List.isPrefixOf_iff_prefix]
    exact hp.trans (List.take_prefix _ _)
  rw [hmin j hj_lt] at this
  cases this

/-!
## Lemmas: UTF-8 stripping (`flushPending`)
-/

/-- The stripping loop always lands on a take-prefix of its argument. -/
theorem stripLoop_take (fuel : Nat) :
    ∀ s : List Nat, ∃ k, k ≤ s.length ∧ stripLoop fuel s = s.take k := by
  induction fuel with
  | zero =>
    intro s
    exact ⟨s.length, le_rfl, by simp [stripLoop]⟩
  | succ fuel ih =>
    intro s
    simp only [stripLoop]
    split
    · exact ⟨s.length, le_rfl, by simp⟩
    · obtain ⟨k, hk, heq⟩ := ih (s.take (s.length - 1))
      refine ⟨min k (s.length - 1), by omega, ?_⟩
      rw [heq, List.take_take]

theorem stripInvalid_take (s : List Nat) :
    ∃ k, k ≤ s.length ∧ stripInvalid s = s.take k :=
  stripLoop_take s.length s

theorem stripInvalid_prefix (s : List Nat) : stripInvalid s <+: s := by
  obtain ⟨k, _, hk⟩ := stripInvalid_take s
  rw [hk]
  exact List.take_prefix _ _

/-- With enough fuel (the initial length), the stripping loop returns valid
UTF-8: the result of `flushPending`'s stripping is always valid. -/
theorem validUtf8_stripLoop (fuel : Nat) :
    ∀ s : List Nat, s.length ≤ fuel → validUtf8 (stripLoop fuel s) = true := by
  induction fuel with
  | zero =>
    intro s hs
    have : s = [] := by
      cases s with
      | nil => rfl
      | cons a t => simp at hs
    subst this
    rfl
  | succ fuel ih =>
    intro s hs
    simp only [stripLoop]
    split
    · assumption
    next hval =>
      apply ih
      simp only [List.length_take]
      have hne : s.length ≠ 0 := by
        intro hc
        apply hval
        have : s = [] := List.length_eq_zero.mp hc
        subst this
        rfl
      omega

theorem validUtf8_stripInvalid (s : List Nat) :
    validUtf8 (stripInvalid s) = true :=
  validUtf8_stripLoop s.length s le_rfl

theorem stripInvalid_of_valid (s : List Nat) (h : validUtf8 s = true) :
    stripInvalid s = s := by
  unfold stripInvalid
  cases hfuel : s.length with
  | zero => rfl
  | succ n =>
    simp only [stripLoop]
    rw [if_pos h]

/-!
## Lemmas: `truncateStop`
-/

theorem truncLoop_at_end (joined : List Nat) (lengths : List Nat) (t : Bool) :
    truncLoop joined lengths joined.length t = ([], t) := by
  cases lengths with
  | nil => rfl
  | cons L rest => simp [truncLoop]

/-- The rebuilt pieces of `truncateStop`'s loop flatten back to the suffix of
the (already truncated) joined string from `start` on, provided the original
lengths cover it. -/
theorem truncLoop_flatten (joined : List Nat) :
    ∀ (lengths : List Nat) (start : Nat) (t : Bool),
      start ≤ joined.length → joined.length ≤ start + lengths.sum →
      (truncLoop joined lengths start t).1.flatten = joined.drop start := by
  intro lengths
  induction lengths with
  | nil =>
    intro start t h1 h2
    simp only [List.sum_nil, Nat.add_zero] at h2
    have hst : start = joined.length := by omega
    subst hst
    simp [truncLoop, List.drop_length]
  | cons L rest ih =>
    intro start t h1 h2
    simp only [truncLoop]
    by_cases hb : joined.length ≤ start
    · rw [if_pos hb]
      have hst : start = joined.length := by omega
      subst hst
      simp [List.drop_length]
    · rw [if_neg hb]
      by_cases hcut : joined.length < start + L
      · rw [if_pos hcut]
        simp only [List.flatten_cons]
        rw [truncLoop_at_end]
        simp only [List.flatten_nil, List.append_nil]
        have hlen : joined.length - start = (joined.drop start).length := by
          simp
        rw [hlen, List.take_length]
      · rw [if_neg hcut]
        simp only [List.flatten_cons]
        rw [ih (start + L) t (by omega)
          (by simp only [List.sum_cons] at h2; omega)]
        have hdd : joined.drop (start + L) = (joined.drop start).drop L := by
          rw [List.drop_drop]
        rw [hdd, List.take_append_drop]

/-- The `tokenTruncated` flag of `truncateStop`'s loop is set exactly when no
prefix of the length list sums to the truncation point (the cut falls strictly
inside a piece). -/
theorem truncLoop_bool (joined : List Nat) :
    ∀ (lengths : List Nat) (start : Nat),
      start ≤ joined.length → joined.length ≤ start + lengths.sum →
      ((truncLoop joined lengths start false).2 = true ↔
        ¬ ∃ k, k ≤ lengths.length ∧
          start + (lengths.take k).sum = joined.length) := by
  intro lengths
  induction lengths with
  | nil =>
    intro start h1 h2
    simp only [List.sum_nil, Nat.add_zero] at h2
    have hst : start = joined.length := by omega
    simp only [truncLoop]
    constructor
    · intro h
      cases h
    · intro hcon
      exact absurd ⟨0, by simp, by simpa using hst⟩ hcon
  | cons L rest ih =>
    intro start h1 h2
    have hsum_cons : ∀ k' : Nat,
        ((L :: rest).take (k' + 1)).sum = L + (rest.take k').sum := by
      intro k'
      simp
    simp only [truncLoop]
    by_cases hb : joined.length ≤ start
    · rw [if_pos hb]
      have hst : start = joined.length := by omega
      constructor
      · intro h
        cases h
      · intro hcon
        exact absurd ⟨0, by simp, by simpa using hst⟩ hcon
    · rw [if_neg hb]
      by_cases hcut : joined.length < start + L
      · rw [if_pos hcut]
        rw [truncLoop_at_end]
        simp only
        constructor
        · intro _
          rintro ⟨k, hk, hsum⟩
          cases k with
          | zero =>
            simp only [List.take_zero, List.sum_nil, Nat.add_zero] at hsum
            omega
          | succ k' =>
            rw [hsum_cons k'] at hsum
            omega
        · intro _
          trivial
      · rw [if_neg hcut]
        have hequiv : (∃ k, k ≤ (L :: rest).length ∧
            start + ((L :: rest).take k).sum = joined.length)
            ↔ (∃ k, k ≤ rest.length ∧
                (start + L) + (rest.take k).sum = joined.length) := by
          constructor
          · rintro ⟨k, hk, hs⟩
            cases k with
            | zero =>
              simp only [List.take_zero, List.sum_nil, Nat.add_zero] at hs
              omega
            | succ k' =>
              rw [hsum_cons k'] at hs
              exact ⟨k', by simpa using hk, by omega⟩
          · rintro ⟨k', hk', hs⟩
            exact ⟨k' + 1, by simpa using hk', by rw [hsum_cons k']; omega⟩
        rw [ih (start + L) (by omega)
          (by simp only [List.sum_cons] at h2; omega)]
        exact not_congr hequiv.symm

/-- C7: when the stop string occurs in the concatenation of the pieces,
`truncateStop` returns pieces whose concatenation is the original
concatenation cut exactly before the first occurrence, and its boolean is true
iff the cut fell strictly inside a piece (no piece boundary sums to the cut
position); moreover the generation loop then finalizes with `"stop"`,
recording the triggering stop, and the message it flushes (if any) is a prefix
of the bytes strictly before the stop occurrence — the client never sees bytes
at or beyond it. -/
theorem claim_C7_truncate_stop (pieces : List (List Nat)) (stop : List Nat)
    (idx : Nat) (hidx : strIndex pieces.flatten stop = some idx) :
    (truncateStop pieces stop).1.flatten = pieces.flatten.take idx ∧
    ((truncateStop pieces stop).2 = true ↔
      ¬ ∃ k, k ≤ pieces.length ∧
        ((pieces.take k).map List.length).sum = idx) ∧
    (∀ (stops : List (List Nat)) (rest pending : List (List Nat))
        (p : List Nat),
      pieces = pending ++ [p] →
      findStop pieces.flatten stops = some stop →
      (genRun stops (p :: rest) pending).stopped = true ∧
      (genRun stops (p :: rest) pending).stopStr = some stop ∧
      (∀ m, (genRun stops (p :: rest) pending).stopMsg = some m →
        m <+: pieces.flatten.take idx)) := by
  have hidx_le : idx ≤ pieces.flatten.length := (strIndex_spec _ _ _ hidx).1
  have hlen' : (pieces.flatten.take idx).length = idx := by
    simp only [List.length_take]
    omega
  have hsum : (pieces.map List.length).sum = pieces.flatten.length :=
    (List.length_flatten pieces).symm
  have hflat : (truncateStop pieces stop).1.flatten = pieces.flatten.take idx := by
    simp only [truncateStop, hidx]
    rw [truncLoop_flatten (pieces.flatten.take idx) (pieces.map List.length) 0
      false (by omega) (by rw [hlen', Nat.zero_add, hsum]; omega)]
    simp
  refine ⟨hflat, ?_, ?_⟩
  · simp only [truncateStop, hidx]
    rw [truncLoop_bool (pieces.flatten.take idx) (pieces.map List.length) 0
      (by omega) (by rw [hlen', Nat.zero_add, hsum]; omega)]
    apply not_congr
    apply exists_congr
    intro k
    rw [hlen', Nat.zero_add, List.length_map, List.map_take]
  · intro stops rest pending p hpieces hfind
    subst hpieces
    simp only [genRun, hfind]
    refine ⟨trivial, trivial, ?_⟩
    intro m hm
    simp only [flushMsg] at hm
    split at hm
    · cases hm
    · cases Option.some.inj hm
      rw [← hflat]
      exact stripInvalid_prefix _

/-- Witness for C7 at the spec's scenario S4: pieces
`"Hello"," world\n","User",":"` with stop `"\nUser:"`: the joined prefix ends
just before the newline and the last surviving piece was shortened. -/
theorem claim_C7_truncate_stop_witness :
    strIndex ([[72, 101, 108, 108, 111], [32, 119, 111, 114, 108, 100, 10],
        [85, 115, 101, 114], [58]] : List (List Nat)).flatten
        [10, 85, 115, 101, 114, 58] = some 11 ∧
    (truncateStop [[72, 101, 108, 108, 111], [32, 119, 111, 114, 108, 100, 10],
        [85, 115, 101, 114], [58]] [10, 85, 115, 101, 114, 58]).1.flatten
      = ([[72, 101, 108, 108, 111], [32, 119, 111, 114, 108, 100, 10],
        [85, 115, 101, 114], [58]] : List (List Nat)).flatten.take 11 ∧
    (truncateStop [[72, 101, 108, 108, 111], [32, 119, 111, 114, 108, 100, 10],
        [85, 115, 101, 114], [58]] [10, 85, 115, 101, 114, 58]).2 = true := by
  refine ⟨by decide, ?_, ?_⟩
  · exact (claim_C7_truncate_stop _ _ 11 (by decide)).1
  · rw [(claim_C7_truncate_stop
      [[72, 101, 108, 108, 111], [32, 119, 111, 114, 108, 100, 10],
        [85, 115, 101, 114], [58]] [10, 85, 115, 101, 114, 58] 11
      (by decide)).2.1]
    decide

/-!
## Lemmas: UTF-8 validity is closed under concatenation
-/

theorem validRuneAt_le_length (b : Nat) (rest : List Nat)
    (h : validRuneAt (b :: rest) = true) :
    1 ≤ runeLen b ∧ runeLen b ≤ (b :: rest).length := by
  simp only [validRuneAt] at h
  simp only [runeLen, List.length_cons]
  by_cases h1 : b ≤ 0x7F
  · rw [if_pos h1]
    omega
  · rw [if_neg h1] at h ⊢
    by_cases h2 : 0xC2 ≤ b ∧ b ≤ 0xDF
    · rw [if_pos h2] at h ⊢
      simp only [Bool.and_eq_true, decide_eq_true_eq] at h
      omega
    · rw [if_neg h2] at h ⊢
      by_cases h3 : 0xE0 ≤ b ∧ b ≤ 0xEF
      · rw [if_pos h3] at h ⊢
        simp only [Bool.and_eq_true, decide_eq_true_eq] at h
        omega
      · rw [if_neg h3] at h ⊢
        by_cases h4 : 0xF0 ≤ b ∧ b ≤ 0xF4
        · rw [if_pos h4] at h ⊢
          simp only [Bool.and_eq_true, decide_eq_true_eq] at h
          omega
        · rw [if_neg h4] at h
          cases h

theorem validRuneAt_append (b : Nat) (rest t : List Nat)
    (h : validRuneAt (b :: rest) = true) :
    validRuneAt (b :: (rest ++ t)) = true := by
  simp only [validRuneAt] at h ⊢
  by_cases h1 : b ≤ 0x7F
  · rw [if_pos h1]
  · rw [if_neg h1] at h ⊢
    by_cases h2 : 0xC2 ≤ b ∧ b ≤ 0xDF
    · rw [if_pos h2] at h ⊢
      simp only [Bool.and_eq_true, decide_eq_true_eq] at h ⊢
      obtain ⟨hl, hc⟩ := h
      rw [List.getD_append _ _ _ _ (by omega)]
      refine ⟨by simp; omega, hc⟩
    · rw [if_neg h2] at h ⊢
      by_cases h3 : 0xE0 ≤ b ∧ b ≤ 0xEF
      · rw [if_pos h3] at h ⊢
        simp only [Bool.and_eq_true, decide_eq_true_eq] at h ⊢
        obtain ⟨⟨hl, hc⟩, hd⟩ := h
        rw [List.getD_append _ _ _ _ (by omega),
          List.getD_append _ _ _ _ (by omega)]
        exact ⟨⟨by simp; omega, hc⟩, hd⟩
      · rw [if_neg h3] at h ⊢
        by_cases h4 : 0xF0 ≤ b ∧ b ≤ 0xF4
        · rw [if_pos h4] at h ⊢
          simp only [Bool.and_eq_true, decide_eq_true_eq] at h ⊢
          obtain ⟨⟨⟨hl, hc⟩, hd⟩, he⟩ := h
          rw [List.getD_append _ _ _ _ (by omega),
            List.getD_append _ _ _ _ (by omega),
            List.getD_append _ _ _ _ (by omega)]
          exact ⟨⟨⟨by simp; omega, hc⟩, hd⟩, he⟩
        · rw [if_neg h4] at h
          cases h

theorem validUtf8Loop_fuel (f1 : Nat) :
    ∀ (f2 : Nat) (s : List Nat), s.length ≤ f1 → s.length ≤ f2 →
      validUtf8Loop f1 s = validUtf8Loop f2 s := by
  induction f1 with
  | zero =>
    intro f2 s h1 _
    have : s = [] := by
      cases s with
      | nil => rfl
      | cons a t => simp at h1
    subst this
    cases f2 <;> rfl
  | succ f ih =>
    intro f2 s h1 h2
    cases s with
    | nil => cases f2 <;> rfl
    | cons b rest =>
      cases f2 with
      | zero => simp at h2
      | succ g =>
        simp only [validUtf8Loop]
        by_cases hv : validRuneAt (b :: rest) = true
        · obtain ⟨hn1, hn2⟩ := validRuneAt_le_length b rest hv
          rw [ih g ((b :: rest).drop (runeLen b))
            (by simp only [List.length_drop, List.length_cons] at *; omega)
            (by simp only [List.length_drop, List.length_cons] at *; omega)]
        · rw [Bool.not_eq_true] at hv
          rw [hv]
          simp

/-- One-step unfolding of `validUtf8` on a non-empty byte string. -/
theorem validUtf8_cons (b : Nat) (rest : List Nat) :
    validUtf8 (b :: rest)
      = (validRuneAt (b :: rest)
          && validUtf8 ((b :: rest).drop (runeLen b))) := by
  simp only [validUtf8, List.length_cons, validUtf8Loop]
  by_cases hv : validRuneAt (b :: rest) = true
  · obtain ⟨hn1, hn2⟩ := validRuneAt_le_length b rest hv
    rw [validUtf8Loop_fuel rest.length ((b :: rest).drop (runeLen b)).length
      ((b :: rest).drop (runeLen b))
      (by simp only [List.length_drop, List.length_cons] at *; omega) le_rfl]
  · rw [Bool.not_eq_true] at hv
    rw [hv]
    simp

theorem validUtf8_append_aux (n : Nat) :
    ∀ (a b : List Nat), a.length ≤ n → validUtf8 a = true →
      validUtf8 b = true → validUtf8 (a ++ b) = true := by
  induction n with
  | zero =>
    intro a b h1 _ hb
    have : a = [] := by
      cases a with
      | nil => rfl
      | cons x t => simp at h1
    subst this
    simpa using hb
  | succ n ih =>
    intro a b h1 ha hb
    cases a with
    | nil => simpa using hb
    | cons x rest =>
      rw [validUtf8_cons] at ha
      rw [Bool.and_eq_true] at ha
      obtain ⟨hr, htail⟩ := ha
      obtain ⟨hn1, hn2⟩ := validRuneAt_le_length x rest hr
      rw [List.cons_append, validUtf8_cons, Bool.and_eq_true]
      constructor
      · exact validRuneAt_append x rest b hr
      · have hdrop : (x :: (rest ++ b)).drop (runeLen x)
            = (x :: rest).drop (runeLen x) ++ b := by
          rw [← List.cons_append, List.drop_append_of_le_length hn2]
        rw [hdrop]
        refine ih ((x :: rest).drop (runeLen x)) b ?_ htail hb
        simp only [List.length_drop, List.length_cons] at *
        omega

/-- Valid UTF-8 strings concatenate to valid UTF-8. -/
theorem validUtf8_append (a b : List Nat) (ha : validUtf8 a = true)
    (hb : validUtf8 b = true) : validUtf8 (a ++ b) = true :=
  validUtf8_append_aux a.length a b le_rfl ha hb

/-- The concatenation of valid pieces is valid. -/
theorem validUtf8_flatten (L : List (List Nat))
    (h : ∀ q ∈ L, validUtf8 q = true) : validUtf8 L.flatten = true := by
  induction L with
  | nil => rfl
  | cons q rest ih =>
    rw [List.flatten_cons]
    exact validUtf8_append q rest.flatten (h q (List.mem_cons_self _ _))
      (ih fun x hx => h x (List.mem_cons_of_mem _ hx))

/-!
## Lemmas: the generation-phase response handling (`genRun`)
-/

theorem flushMsg_some (L : List (List Nat)) (m : List Nat)
    (h : flushMsg L = some m) : m = stripInvalid L.flatten ∧ m ≠ [] := by
  simp only [flushMsg] at h
  split at h
  · cases h
  next hne =>
    cases Option.some.inj h
    refine ⟨rfl, ?_⟩
    intro hc
    rw [List.isEmpty_iff] at hne
    exact hne hc

theorem strContains_false_of_prefix (m s sub : List Nat) (hp : m <+: s)
    (h : strContains s sub = false) : strContains m sub = false := by
  by_contra hc
  rw [Bool.not_eq_false] at hc
  rw [strContains_mono m s sub hp hc] at h
  cases h

/-- The rebuilt pieces of `truncateStop` flatten to the joined input cut just
before the first occurrence of the stop string. -/
theorem truncateStop_flatten (pieces : List (List Nat)) (stop : List Nat)
    (idx : Nat) (hidx : strIndex pieces.flatten stop = some idx) :
    (truncateStop pieces stop).1.flatten = pieces.flatten.take idx := by
  have hidx_le : idx ≤ pieces.flatten.length := (strIndex_spec _ _ _ hidx).1
  have hlen' : (pieces.flatten.take idx).length = idx := by
    simp only [List.length_take]
    omega
  have hsum : (pieces.map List.length).sum = pieces.flatten.length :=
    (List.length_flatten pieces).symm
  simp only [truncateStop, hidx]
  rw [truncLoop_flatten (pieces.flatten.take idx) (pieces.map List.length) 0
    false (by omega) (by rw [hlen', Nat.zero_add, hsum]; omega)]
  simp

/-- The message flushed after stop-string truncation never contains the
triggering stop string. -/
theorem stopMsg_no_stop (pieces : List (List Nat)) (stop m : List Nat)
    (idx : Nat) (hidx : strIndex pieces.flatten stop = some idx)
    (hm : flushMsg (truncateStop pieces stop).1 = some m) :
    strContains m stop = false := by
  obtain ⟨hmeq, hmne⟩ := flushMsg_some _ _ hm
  have hflat := truncateStop_flatten pieces stop idx hidx
  by_cases hstop : stop = []
  · subst hstop
    rw [strIndex_nil] at hidx
    cases Option.some.inj hidx
    rw [hflat] at hmeq
    simp only [List.take_zero] at hmeq
    exact absurd hmeq (by simpa using hmne)
  · have hpre : m <+: pieces.flatten.take idx := by
      rw [hmeq, ← hflat]
      exact stripInvalid_prefix _
    exact strContains_false_of_prefix m _ stop hpre
      (strContains_take_index _ _ idx hstop hidx)

/-- A message flushed mid-stream is a stripped prefix of a joined string that
contains no stop, hence contains no stop. -/
theorem midMsg_no_stop (L : List (List Nat)) (S m : List Nat)
    (hfs : strContains L.flatten S = false)
    (hm : flushMsg L = some m) : strContains m S = false := by
  obtain ⟨hmeq, _⟩ := flushMsg_some _ _ hm
  refine strContains_false_of_prefix m _ S ?_ hfs
  rw [hmeq]
  exact stripInvalid_prefix _

theorem findStop_none_spec (seq : List Nat) (stops : List (List Nat))
    (h : findStop seq stops = none) :
    ∀ S ∈ stops, strContains seq S = false := by
  simp only [findStop, List.find?_eq_none] at h
  intro S hS
  simpa using h S hS

theorem containsStopSuffix_false_spec (seq : List Nat)
    (stops : List (List Nat)) (h : containsStopSuffix seq stops = false) :
    ∀ S ∈ stops, ∀ i, 1 ≤ i → i ≤ S.length →
      (S.take i).isSuffixOf seq = false := by
  simp only [containsStopSuffix, List.any_eq_false] at h
  intro S hS i h1 h2
  have h4 : (List.range S.length).any
      (fun j => (S.take (j + 1)).isSuffixOf seq) = false := by
    simpa using h S hS
  rw [List.any_eq_false] at h4
  have h5 := h4 (i - 1) (List.mem_range.mpr (by omega))
  have heq : i - 1 + 1 = i := by omega
  rw [heq] at h5
  rw [← Bool.not_eq_true]
  simpa using h5

/-- Main induction for the stop-string invariants of the generation loop. -/
theorem genRun_spec (stops : List (List Nat)) :
    ∀ (pieces pending : List (List Nat)),
      (∀ m ∈ (genRun stops pieces pending).mid, ∀ S ∈ stops,
          strContains m S = false) ∧
      (∀ m S, (genRun stops pieces pending).stopMsg = some m →
          (genRun stops pieces pending).stopStr = some S →
          S ∈ stops ∧ strContains m S = false) ∧
      ((∀ q ∈ pieces, validUtf8 q = true) →
        (∀ q ∈ pending, validUtf8 q = true) →
        ∀ m ∈ (genRun stops pieces pending).mid, ∀ S ∈ stops,
          ∀ i, 1 ≤ i → i ≤ S.length → (S.take i).isSuffixOf m = false) := by
  intro pieces
  induction pieces with
  | nil =>
    intro pending
    refine ⟨?_, ?_, ?_⟩ <;> simp [genRun]
  | cons p rest ih =>
    intro pending
    have hvalid1 : (∀ q ∈ p :: rest, validUtf8 q = true) →
        (∀ q ∈ pending, validUtf8 q = true) →
        ∀ q ∈ pending ++ [p], validUtf8 q = true := by
      intro hpv hpendv q hq
      rcases List.mem_append.mp hq with hq' | hq'
      · exact hpendv q hq'
      · rw [List.mem_singleton.mp hq']
        exact hpv p (List.mem_cons_self _ _)
    cases hfind : findStop ((pending ++ [p]).flatten) stops with
    | some stop =>
      have hcontains : strContains ((pending ++ [p]).flatten) stop = true :=
        List.find?_some hfind
      obtain ⟨idx, hidx⟩ := Option.isSome_iff_exists.mp hcontains
      have hred : genRun stops (p :: rest) pending
          = ⟨[], flushMsg (truncateStop (pending ++ [p]) stop).1,
              some stop, true, []⟩ := by
        simp only [genRun, hfind]
      rw [hred]
      refine ⟨?_, ?_, ?_⟩
      · intro m hm
        simp at hm
      · intro m S hm hS
        dsimp only at hm hS
        cases Option.some.inj hS
        exact ⟨List.mem_of_find?_eq_some hfind,
          stopMsg_no_stop (pending ++ [p]) stop m idx hidx hm⟩
      · intro _ _ m hm
        simp at hm
    | none =>
      by_cases hsuf : containsStopSuffix ((pending ++ [p]).flatten) stops = true
      · have hred : genRun stops (p :: rest) pending
            = genRun stops rest (pending ++ [p]) := by
          simp only [genRun, hfind]
          rw [if_pos hsuf]
        rw [hred]
        obtain ⟨ha, hc, hbv⟩ := ih (pending ++ [p])
        exact ⟨ha, hc, fun hpv hpendv =>
          hbv (fun q hq => hpv q (List.mem_cons_of_mem _ hq))
            (hvalid1 hpv hpendv)⟩
      · by_cases hinc : incompleteUnicode ((pending ++ [p]).flatten) = true
        · have hred : genRun stops (p :: rest) pending
              = genRun stops rest (pending ++ [p]) := by
            simp only [genRun, hfind]
            rw [if_neg hsuf, if_pos hinc]
          rw [hred]
          obtain ⟨ha, hc, hbv⟩ := ih (pending ++ [p])
          exact ⟨ha, hc, fun hpv hpendv =>
            hbv (fun q hq => hpv q (List.mem_cons_of_mem _ hq))
              (hvalid1 hpv hpendv)⟩
        · cases hflush : flushMsg (pending ++ [p]) with
          | some m0 =>
            have hred : genRun stops (p :: rest) pending
                = ⟨m0 :: (genRun stops rest []).mid,
                   (genRun stops rest []).stopMsg,
                   (genRun stops rest []).stopStr,
                   (genRun stops rest []).stopped,
                   (genRun stops rest []).pending⟩ := by
              simp only [genRun, hfind]
              rw [if_neg hsuf, if_neg hinc, hflush]
            rw [hred]
            obtain ⟨ha, hc, hbv⟩ := ih []
            refine ⟨?_, hc, ?_⟩
            · intro m hm S hS
              rcases List.mem_cons.mp hm with heq | hm'
              · subst heq
                exact midMsg_no_stop (pending ++ [p]) S m
                  (findStop_none_spec _ _ hfind S hS) hflush
              · exact ha m hm' S hS
            · intro hpv hpendv m hm S hS i hi1 hi2
              rcases List.mem_cons.mp hm with heq | hm'
              · subst heq
                obtain ⟨hmeq, _⟩ := flushMsg_some _ _ hflush
                have hval : validUtf8 ((pending ++ [p]).flatten) = true :=
                  validUtf8_flatten _ (hvalid1 hpv hpendv)
                rw [hmeq, stripInvalid_of_valid _ hval]
                have hsuf' : containsStopSuffix ((pending ++ [p]).flatten) stops
                    = false := by
                  rw [← Bool.not_eq_true]
                  exact hsuf
                exact containsStopSuffix_false_spec _ stops hsuf' S hS i hi1 hi2
              · exact hbv (fun q hq => hpv q (List.mem_cons_of_mem _ hq))
                  (by intro q hq; cases hq) m hm' S hS i hi1 hi2
          | none =>
            have hred : genRun stops (p :: rest) pending
                = genRun stops rest [] := by
              simp only [genRun, hfind]
              rw [if_neg hsuf, if_neg hinc, hflush]
            rw [hred]
            obtain ⟨ha, hc, hbv⟩ := ih []
            exact ⟨ha, hc, fun hpv hpendv =>
              hbv (fun q hq => hpv q (List.mem_cons_of_mem _ hq))
                (by intro q hq; cases hq)⟩

/-- Every message produced by the generation loop goes through `flushPending`'s
stripping, hence is valid UTF-8. -/
theorem genRun_valid (stops : List (List Nat)) :
    ∀ (pieces pending : List (List Nat)),
      (∀ m ∈ (genRun stops pieces pending).mid, validUtf8 m = true) ∧
      (∀ m, (genRun stops pieces pending).stopMsg = some m →
        validUtf8 m = true) := by
  intro pieces
  induction pieces with
  | nil =>
    intro pending
    constructor <;> simp [genRun]
  | cons p rest ih =>
    intro pending
    cases hfind : findStop ((pending ++ [p]).flatten) stops with
    | some stop =>
      have hred : genRun stops (p :: rest) pending
          = ⟨[], flushMsg (truncateStop (pending ++ [p]) stop).1,
              some stop, true, []⟩ := by
        simp only [genRun, hfind]
      rw [hred]
      constructor
      · intro m hm
        simp at hm
      · intro m hm
        dsimp only at hm
        obtain ⟨hmeq, _⟩ := flushMsg_some _ _ hm
        rw [hmeq]
        exact validUtf8_stripInvalid _
    | none =>
      by_cases hsuf : containsStopSuffix ((pending ++ [p]).flatten) stops = true
      · have hred : genRun stops (p :: rest) pending
            = genRun stops rest (pending ++ [p]) := by
          simp only [genRun, hfind]
          rw [if_pos hsuf]
        rw [hred]
        exact ih (pending ++ [p])
      · by_cases hinc : incompleteUnicode ((pending ++ [p]).flatten) = true
        · have hred : genRun stops (p :: rest) pending
              = genRun stops rest (pending ++ [p]) := by
            simp only [genRun, hfind]
            rw [if_neg hsuf, if_pos hinc]
          rw [hred]
          exact ih (pending ++ [p])
        · cases hflush : flushMsg (pending ++ [p]) with
          | some m0 =>
            have hred : genRun stops (p :: rest) pending
                = ⟨m0 :: (genRun stops rest []).mid,
                   (genRun stops rest []).stopMsg,
                   (genRun stops rest []).stopStr,
                   (genRun stops rest []).stopped,
                   (genRun stops rest []).pending⟩ := by
              simp only [genRun, hfind]
              rw [if_neg hsuf, if_neg hinc, hflush]
            rw [hred]
            obtain ⟨ha, hb⟩ := ih []
            constructor
            · intro m hm
              rcases List.mem_cons.mp hm with heq | hm'
              · subst heq
                obtain ⟨hmeq, _⟩ := flushMsg_some _ _ hflush
                rw [hmeq]
                exact validUtf8_stripInvalid _
              · exact ha m hm'
            · exact hb
          | none =>
            have hred : genRun stops (p :: rest) pending
                = genRun stops rest [] := by
              simp only [genRun, hfind]
              rw [if_neg hsuf, if_neg hinc, hflush]
            rw [hred]
            exact ih []

/-- C6 as stated is false: with configured stops `["bc", "ad"]` and a single
sampled piece `"adbc"`, `findStop` selects `"bc"` (first in list order), the
truncation cuts before `"bc"` at index 2, and the flushed content `"ad"` —
sent on the responses channel — contains the configured stop string `"ad"`
as a substring. -/
theorem claim_C6_counterexample :
    (genRun [[98, 99], [97, 100]] [[97, 100, 98, 99]] []).stopMsg
      = some [97, 100] ∧
    (genRun [[98, 99], [97, 100]] [[97, 100, 98, 99]] []).stopped = true ∧
    [97, 100] ∈ ([[98, 99], [97, 100]] : List (List Nat)) ∧
    strContains [97, 100] [97, 100] = true := by
  decide

/-- C6 (amended): for any configured stop string `S`: (1) no *mid-stream*
content sent on the responses channel contains `S` as a substring; (2) the
final content flushed on stop-termination does not contain the *triggering*
stop string (it is cut before that stop's first occurrence), though with
several stops configured it may contain a different one; (3) if every
generated piece is valid UTF-8, no mid-stream sent content ends with a
non-empty prefix of any stop string.  (A final flush at termination — for
`"stop"` after truncation or for any other reason — may end with a strict
non-empty prefix of a stop string.) -/
theorem claim_C6_stop_stream_invariant (stops : List (List Nat))
    (pieces : List (List Nat)) :
    (∀ m ∈ (genRun stops pieces []).mid, ∀ S ∈ stops,
      strContains m S = false) ∧
    (∀ m S, (genRun stops pieces []).stopMsg = some m →
      (genRun stops pieces []).stopStr = some S →
      S ∈ stops ∧ strContains m S = false) ∧
    ((∀ q ∈ pieces, validUtf8 q = true) →
      ∀ m ∈ (genRun stops pieces []).mid, ∀ S ∈ stops,
        ∀ i, 1 ≤ i → i ≤ S.length → (S.take i).isSuffixOf m = false) := by
  obtain ⟨ha, hc, hb⟩ := genRun_spec stops pieces []
  exact ⟨ha, hc, fun hpv => hb hpv (by intro q hq; cases hq)⟩

/-- Witness for the amended C6 on concrete runs: a mid-stream flush avoids
the stop and its prefixes, and a stop-truncated flush avoids the triggering
stop. -/
theorem claim_C6_stop_stream_invariant_witness :
    strContains [120] [97, 98] = false ∧
    ([98, 99] ∈ ([[98, 99]] : List (List Nat)) ∧
      strContains [97] [98, 99] = false) ∧
    (List.take 1 [97, 98]).isSuffixOf [120] = false := by
  refine ⟨?_, ?_, ?_⟩
  · exact (claim_C6_stop_stream_invariant [[97, 98]] [[120], [121]]).1
      [120] (by decide) [97, 98] (by decide)
  · exact (claim_C6_stop_stream_invariant [[98, 99]] [[97, 98, 99]]).2.1
      [97] [98, 99] (by decide) (by decide)
  · exact (claim_C6_stop_stream_invariant [[97, 98]] [[120], [121]]).2.2
      (by decide) [120] (by decide) [97, 98] (by decide) 1 (by decide)
      (by decide)

/-- C8: every string sent on a sequence's responses channel is valid UTF-8 —
`flushPending` joins the pending pieces and strips trailing bytes until the
remainder is valid before sending (both mid-stream and at stop-termination) —
and during generation a joined string whose trailing bytes form an incomplete
UTF-8 code point under the leading-byte rule is held rather than flushed. -/
theorem claim_C8_utf8_safety :
    (∀ s : List Nat, validUtf8 (stripInvalid s) = true) ∧
    (∀ (stops pieces pending : List (List Nat)),
      (∀ m ∈ (genRun stops pieces pending).mid, validUtf8 m = true) ∧
      (∀ m, (genRun stops pieces pending).stopMsg = some m →
        validUtf8 m = true)) ∧
    (∀ (stops : List (List Nat)) (p : List Nat) (rest pending : List (List Nat)),
      findStop ((pending ++ [p]).flatten) stops = none →
      containsStopSuffix ((pending ++ [p]).flatten) stops = false →
      incompleteUnicode ((pending ++ [p]).flatten) = true →
      genRun stops (p :: rest) pending = genRun stops rest (pending ++ [p])) := by
  refine ⟨validUtf8_stripInvalid, ?_, ?_⟩
  · intro stops pieces pending
    exact genRun_valid stops pieces pending
  · intro stops p rest pending hfind hsuf hinc
    simp only [genRun, hfind]
    rw [if_neg (by rw [hsuf]; simp), if_pos hinc]

/-- Witness for C8: stripping the invalid byte `0xFF` yields valid UTF-8, and
the two leading bytes of `€` (`0xE2 0x82`) are held, not flushed. -/
theorem claim_C8_utf8_safety_witness :
    validUtf8 (stripInvalid [97, 255]) = true ∧
    genRun [[97, 98]] [[226, 130]] [] = genRun [[97, 98]] [] [[226, 130]] := by
  constructor
  · exact claim_C8_utf8_safety.1 [97, 255]
  · exact claim_C8_utf8_safety.2.2 [[97, 98]] [226, 130] [] []
      (by decide) (by decide) (by decide)

/-!
## C9: `NewSequence` numKeep normalization and prompt truncation
-/

/-- C9: after normalizing `numKeep` (negative ↦ input length, `+1` for BOS,
clamp to `numCtx - 1`), whenever the tokenized input length exceeds `numCtx`
the inputs become the first `numKeep` entries followed by the entries from
position `numKeep + (len - numCtx)` onward: the result has length exactly
`numCtx` and preserves the first `numKeep` entries. -/
theorem claim_C9_prompt_truncation (inputs : List GoInput) (numKeep : Int)
    (addBos : Bool) (numCtx : Nat) (hc : 1 ≤ numCtx)
    (hlen : numCtx < inputs.length) :
    (truncatePromptInputs inputs
        (normalizeNumKeep numKeep inputs.length addBos numCtx).toNat numCtx)
      = inputs.take (normalizeNumKeep numKeep inputs.length addBos numCtx).toNat
        ++ inputs.drop ((normalizeNumKeep numKeep inputs.length addBos numCtx).toNat
            + (inputs.length - numCtx)) ∧
    (truncatePromptInputs inputs
        (normalizeNumKeep numKeep inputs.length addBos numCtx).toNat numCtx).length
      = numCtx ∧
    (truncatePromptInputs inputs
        (normalizeNumKeep numKeep inputs.length addBos numCtx).toNat numCtx).take
          (normalizeNumKeep numKeep inputs.length addBos numCtx).toNat
      = inputs.take (normalizeNumKeep numKeep inputs.length addBos numCtx).toNat ∧
    (normalizeNumKeep numKeep inputs.length addBos numCtx).toNat ≤ numCtx - 1 := by
  have hle : normalizeNumKeep numKeep inputs.length addBos numCtx
      ≤ (numCtx : Int) - 1 := by
    simp only [normalizeNumKeep]
    exact min_le_right _ _
  have hnk : (normalizeNumKeep numKeep inputs.length addBos numCtx).toNat
      ≤ numCtx - 1 := by omega
  set nk := (normalizeNumKeep numKeep inputs.length addBos numCtx).toNat with hnkdef
  have heq : truncatePromptInputs inputs nk numCtx
      = inputs.take nk ++ inputs.drop (nk + (inputs.length - numCtx)) := by
    simp only [truncatePromptInputs, if_pos hlen]
  have htk : (inputs.take nk).length = nk := by
    simp only [List.length_take]
    omega
  refine ⟨heq, ?_, ?_, hnk⟩
  · rw [heq]
    simp only [List.length_append, List.length_take, List.length_drop]
    omega
  · rw [heq]
    calc (inputs.take nk ++ inputs.drop (nk + (inputs.length - numCtx))).take nk
        = (inputs.take nk
            ++ inputs.drop (nk + (inputs.length - numCtx))).take
              (inputs.take nk).length := by rw [htk]
      _ = inputs.take nk := List.take_left _ _

/-- Witness for C9: 10 inputs, `numKeep = -1`, BOS added, `numCtx = 8`:
normalized keep is `min (10+1) 7 = 7` and the truncated inputs keep the first
7 entries and the final entry, length exactly 8. -/
theorem claim_C9_prompt_truncation_witness :
    truncatePromptInputs
        [tok 0, tok 1, tok 2, tok 3, tok 4, tok 5, tok 6, tok 7, tok 8, tok 9]
        (normalizeNumKeep (-1) 10 true 8).toNat 8
      = [tok 0, tok 1, tok 2, tok 3, tok 4, tok 5, tok 6, tok 9] ∧
    (truncatePromptInputs
        [tok 0, tok 1, tok 2, tok 3, tok 4, tok 5, tok 6, tok 7, tok 8, tok 9]
        (normalizeNumKeep (-1) 10 true 8).toNat 8).length = 8 := by
  have h := claim_C9_prompt_truncation
    [tok 0, tok 1, tok 2, tok 3, tok 4, tok 5, tok 6, tok 7, tok 8, tok 9]
    (-1) true 8 (by decide) (by decide)
  exact ⟨h.1.trans (by decide), h.2.1⟩

/-!
## C10: AES-CBC round trip
-/

theorem padBytes_length (data : List Nat) :
    (padBytes data 16).length = data.length + (16 - data.length % 16) := by
  simp [padBytes]

theorem padBytes_mod (data : List Nat) : (padBytes data 16).length % 16 = 0 := by
  rw [padBytes_length]
  omega

theorem unpad_padBytes (data : List Nat) :
    unpadBytes (padBytes data 16) 16 = data := by
  have hmod : data.length % 16 < 16 := Nat.mod_lt _ (by omega)
  have hlen := padBytes_length data
  simp only [unpadBytes]
  have hlast : (padBytes data 16).getD ((padBytes data 16).length - 1) 0
      = 16 - data.length % 16 := by
    simp only [padBytes]
    rw [List.getD_append_right _ _ _ _ (by simp; omega)]
    rw [List.getD_eq_getElem _ _ (by simp; omega)]
    simp
  rw [hlast, if_neg (by omega), hlen]
  have : data.length + (16 - data.length % 16) - (16 - data.length % 16)
      = data.length := by omega
  rw [this]
  simp only [padBytes]
  calc (data ++ List.replicate (16 - data.length % 16)
          (16 - data.length % 16)).take data.length
      = (data ++ List.replicate (16 - data.length % 16)
          (16 - data.length % 16)).take data.length := rfl
    _ = data := by
        rw [List.take_append_of_le_length le_rfl]
        simp

theorem xorBytes_cancel (a b : List Nat) (h : a.length = b.length) :
    xorBytes (xorBytes a b) b = a := by
  induction a generalizing b with
  | nil => simp [xorBytes]
  | cons x a ih =>
    cases b with
    | nil => simp at h
    | cons y b =>
      simp only [xorBytes, List.zipWith_cons_cons, List.cons.injEq]
      exact ⟨Nat.xor_cancel_right _ _, ih b (by simpa using h)⟩

theorem xorBytes_length (a b : List Nat) :
    (xorBytes a b).length = min a.length b.length := by
  simp [xorBytes]

theorem cbcEncrypt_lengths (encB : List Nat → List Nat)
    (hlenc : ∀ b : List Nat, b.length = 16 → (encB b).length = 16) :
    ∀ (ps : List (List Nat)) (iv : List Nat), (∀ p ∈ ps, p.length = 16) →
      iv.length = 16 → ∀ c ∈ cbcEncrypt encB iv ps, c.length = 16 := by
  intro ps
  induction ps with
  | nil =>
    intro iv _ _ c hc
    simp [cbcEncrypt] at hc
  | cons p rest ih =>
    intro iv hps hiv c hc
    have hp : p.length = 16 := hps p (List.mem_cons_self _ _)
    have hxl : (xorBytes p iv).length = 16 := by
      rw [xorBytes_length, hp, hiv]
      simp
    have hcl : (encB (xorBytes p iv)).length = 16 := hlenc _ hxl
    simp only [cbcEncrypt] at hc
    rcases List.mem_cons.mp hc with heq | hc'
    · rw [heq]
      exact hcl
    · exact ih (encB (xorBytes p iv))
        (fun q hq => hps q (List.mem_cons_of_mem _ hq)) hcl c hc'

theorem cbcDecrypt_cbcEncrypt (encB decB : List Nat → List Nat)
    (hinv : ∀ b : List Nat, decB (encB b) = b)
    (hlenc : ∀ b : List Nat, b.length = 16 → (encB b).length = 16) :
    ∀ (ps : List (List Nat)) (iv : List Nat), (∀ p ∈ ps, p.length = 16) →
      iv.length = 16 → cbcDecrypt decB iv (cbcEncrypt encB iv ps) = ps := by
  intro ps
  induction ps with
  | nil =>
    intro iv _ _
    rfl
  | cons p rest ih =>
    intro iv hps hiv
    have hp : p.length = 16 := hps p (List.mem_cons_self _ _)
    have hxl : (xorBytes p iv).length = 16 := by
      rw [xorBytes_length, hp, hiv]
      simp
    have hcl : (encB (xorBytes p iv)).length = 16 := hlenc _ hxl
    simp only [cbcEncrypt, cbcDecrypt, hinv, List.cons.injEq]
    exact ⟨xorBytes_cancel p iv (by omega),
      ih (encB (xorBytes p iv))
        (fun q hq => hps q (List.mem_cons_of_mem _ hq)) hcl⟩

theorem toBlocks_spec (fuel : Nat) :
    ∀ xs : List Nat, xs.length ≤ fuel → 16 ∣ xs.length →
      (toBlocks fuel xs).flatten = xs ∧
      ∀ b ∈ toBlocks fuel xs, b.length = 16 := by
  induction fuel with
  | zero =>
    intro xs h1 _
    have : xs = [] := by
      cases xs with
      | nil => rfl
      | cons x t => simp at h1
    subst this
    exact ⟨rfl, by simp [toBlocks]⟩
  | succ f ih =>
    intro xs h1 h2
    cases xs with
    | nil => exact ⟨rfl, by simp [toBlocks]⟩
    | cons x t =>
      have hge : 16 ≤ (x :: t).length := by
        rcases h2 with ⟨c, hc⟩
        simp only [List.length_cons] at hc ⊢
        rcases Nat.eq_zero_or_pos c with h0 | hpos
        · omega
        · omega
      simp only [toBlocks]
      obtain ⟨hflat, hall⟩ := ih ((x :: t).drop 16)
        (by simp only [List.length_drop]; omega)
        (by simp only [List.length_drop]; omega)
      constructor
      · rw [List.flatten_cons, hflat, List.take_append_drop]
      · intro b hb
        rcases List.mem_cons.mp hb with heq | hb'
        · rw [heq]
          simp only [List.length_take]
          omega
        · exact hall b hb'

theorem toBlocks_flatten (bs : List (List Nat))
    (hall : ∀ b ∈ bs, b.length = 16) :
    ∀ fuel, bs.flatten.length ≤ fuel → toBlocks fuel bs.flatten = bs := by
  induction bs with
  | nil =>
    intro fuel _
    cases fuel <;> rfl
  | cons b rest ih =>
    intro fuel hfuel
    have hb : b.length = 16 := hall b (List.mem_cons_self _ _)
    rw [List.flatten_cons] at hfuel ⊢
    cases b with
    | nil => simp at hb
    | cons x bt =>
      cases fuel with
      | zero =>
        simp only [List.length_append, List.length_cons] at hfuel
        omega
      | succ f =>
        rw [List.cons_append]
        simp only [toBlocks]
        have htake : ((x :: bt) ++ rest.flatten).take 16 = x :: bt := by
          rw [show (16 : Nat) = (x :: bt).length from hb.symm]
          exact List.take_left _ _
        have hdrop : ((x :: bt) ++ rest.flatten).drop 16 = rest.flatten := by
          rw [show (16 : Nat) = (x :: bt).length from hb.symm]
          exact List.drop_left _ _
        rw [List.cons_append] at htake hdrop
        rw [htake, hdrop,
          ih (fun q hq => hall q (List.mem_cons_of_mem _ hq)) f
            (by simp only [List.length_append, List.length_cons] at hfuel; omega)]

/-- C10: for any block cipher pair `encB`/`decB` that are mutually inverse and
length-preserving on 16-byte blocks (the claim's model of the keyed AES
cipher, valid for every 16/24/32-byte key), and any IV chosen at encryption,
`AesDecrypt ∘ AesEncrypt` returns the original text at the byte level; and
`pad` appends between 1 and 16 bytes whose value is the padding length,
making the padded length a multiple of the block size, while `unpad` inverts
`pad`. -/
theorem claim_C10_aes_roundtrip (encB decB : List Nat → List Nat)
    (iv text : List Nat)
    (hinv : ∀ b : List Nat, decB (encB b) = b)
    (hlenc : ∀ b : List Nat, b.length = 16 → (encB b).length = 16)
    (hiv : iv.length = 16) :
    aesDecryptBytes decB (aesEncryptBytes encB iv text) = .ok text ∧
    1 ≤ 16 - text.length % 16 ∧ 16 - text.length % 16 ≤ 16 ∧
    (padBytes text 16).length % 16 = 0 ∧
    unpadBytes (padBytes text 16) 16 = text := by
  have hmod : text.length % 16 < 16 := Nat.mod_lt _ (by omega)
  refine ⟨?_, by omega, by omega, padBytes_mod text, unpad_padBytes text⟩
  obtain ⟨hflat, hall⟩ := toBlocks_spec (padBytes text 16).length
    (padBytes text 16) le_rfl (by
      have := padBytes_mod text
      omega)
  have hctall : ∀ c ∈ cbcEncrypt encB iv
      (toBlocks (padBytes text 16).length (padBytes text 16)), c.length = 16 :=
    cbcEncrypt_lengths encB hlenc _ iv hall hiv
  simp only [aesEncryptBytes, aesDecryptBytes]
  rw [if_neg (by simp [hiv])]
  have htake : (iv ++ (cbcEncrypt encB iv
      (toBlocks (padBytes text 16).length (padBytes text 16))).flatten).take 16
      = iv := by
    rw [show (16 : Nat) = iv.length from hiv.symm]
    exact List.take_left _ _
  have hdrop : (iv ++ (cbcEncrypt encB iv
      (toBlocks (padBytes text 16).length (padBytes text 16))).flatten).drop 16
      = (cbcEncrypt encB iv
          (toBlocks (padBytes text 16).length (padBytes text 16))).flatten := by
    rw [show (16 : Nat) = iv.length from hiv.symm]
    exact List.drop_left _ _
  rw [htake, hdrop, toBlocks_flatten _ hctall _ le_rfl,
    cbcDecrypt_cbcEncrypt encB decB hinv hlenc _ iv hall hiv, hflat,
    unpad_padBytes]

/-- Witness for C10 with the identity cipher, the zero IV and text
`[1, 2, 3]`. -/
theorem claim_C10_aes_roundtrip_witness :
    aesDecryptBytes id (aesEncryptBytes id (List.replicate 16 0) [1, 2, 3])
      = .ok [1, 2, 3] ∧
    unpadBytes (padBytes [1, 2, 3] 16) 16 = [1, 2, 3] := by
  have h := claim_C10_aes_roundtrip id id (List.replicate 16 0) [1, 2, 3]
    (fun _ => rfl) (fun _ hb => hb) (by simp)
  exact ⟨h.1, h.2.2.2.2⟩

end LlmServer
